import Mathlib

/-!
Verification of the clawkeeper persistence engine against its source.

Strings from the TypeScript source are modelled as lists of characters
(abbreviation `Str`), so that prefix and append reasoning is directly
available.  JavaScript numbers that the code only ever uses as integers
(`repeatIntervalHours`, `totalCompletions`) are modelled as `Int`.
The nondeterministic `generateId` (Math.random based) is modelled by
threading an id supply `gen : Nat → Str` and a counter through the parser.
-/

namespace Clawkeeper

abbrev Str : Type := List Char

/-- The character class of the JavaScript regex class backslash-s and of
String.prototype.trim (WhiteSpace plus LineTerminator). -/
def jsWs (c : Char) : Bool :=
  c == ' ' || c == '\t' || c == '\n' || c == '\r' || c == '\x0b' || c == '\x0c' ||
  c == '\u00A0' || c == '\u1680' || ('\u2000' ≤ c && c ≤ '\u200A') ||
  c == '\u2028' || c == '\u2029' || c == '\u202F' || c == '\u205F' ||
  c == '\u3000' || c == '\uFEFF'

/-- The JavaScript regex dot: any character except a line terminator.
Without the s flag, `.` never matches newline, carriage return, line
separator (U+2028) or paragraph separator (U+2029), so the text groups of
the checkbox and note regexes cannot span such a character. -/
def jsDot (c : Char) : Bool :=
  !(c == '\n' || c == '\r' || c == '\u2028' || c == '\u2029')

/-- Decimal digit character for a digit value below ten. -/
def digitChar (n : Nat) : Char :=
  match n with
  | 0 => '0' | 1 => '1' | 2 => '2' | 3 => '3' | 4 => '4'
  | 5 => '5' | 6 => '6' | 7 => '7' | 8 => '8' | _ => '9'

/-- Decimal rendering of a natural number, as JavaScript Number.toString
produces for non-negative integers. -/
def natToStr (n : Nat) : Str :=
  if h : n < 10 then [digitChar n]
  else natToStr (n / 10) ++ [digitChar (n % 10)]
decreasing_by exact Nat.div_lt_self (by omega) (by omega)

/-- Decimal rendering of an integer, as JavaScript template interpolation
of an integral number produces for the integers JavaScript renders in
plain decimal: magnitudes below 2 to the 53rd, where every integer is an
exact double and printing never switches to exponent notation (that
happens only at 10 to the 21st).  wfHabit keeps the persisted counters in
that range. -/
def intToStr (i : Int) : Str :=
  if i < 0 then '-' :: natToStr (-i).toNat else natToStr i.toNat

def digitVal (c : Char) : Nat := c.toNat - 48

def isHexDigit (c : Char) : Bool :=
  c.isDigit || ('a' ≤ c && c ≤ 'f') || ('A' ≤ c && c ≤ 'F')

def hexVal (c : Char) : Nat :=
  if c.isDigit then digitVal c
  else if 'a' ≤ c && c ≤ 'f' then c.toNat - 87
  else c.toNat - 55

/-- Value of the longest leading run of decimal digits; none when there is
no leading digit (the NaN case of parseInt). -/
def digitsVal (s : Str) : Option Nat :=
  let ds := s.takeWhile Char.isDigit
  if ds.isEmpty then none
  else some (ds.foldl (fun a c => 10 * a + digitVal c) 0)

def hexDigitsVal (s : Str) : Option Nat :=
  let ds := s.takeWhile isHexDigit
  if ds.isEmpty then none
  else some (ds.foldl (fun a c => 16 * a + hexVal c) 0)

/-- Unsigned part of JavaScript parseInt with no radix argument: a 0x or 0X
prefix selects base sixteen, otherwise base ten. -/
def natPart (s : Str) : Option Nat :=
  match s with
  | '0' :: 'x' :: r => hexDigitsVal r
  | '0' :: 'X' :: r => hexDigitsVal r
  | _ => digitsVal s

/-- JavaScript parseInt(s): skip leading whitespace, optional sign, then the
longest valid digit run; none models NaN. -/
def jsParseInt (s : Str) : Option Int :=
  match s.dropWhile jsWs with
  | '-' :: r => (natPart r).map (fun n => -(n : Int))
  | '+' :: r => (natPart r).map (fun n => (n : Int))
  | t => (natPart t).map (fun n => (n : Int))

/-- Models the idiom parseInt(x) logical-or fallback from the source: both
NaN and 0 are falsy, so both select the fallback. -/
def jsParseIntOr (s : Str) (dflt : Int) : Int :=
  match jsParseInt s with
  | none => dflt
  | some v => if v = 0 then dflt else v

/-- A habit or task note, from types.ts. -/
structure Note where
  createdAt : Str
  text : Str
deriving Repr, DecidableEq

/-- A habit, from types.ts. -/
structure Habit where
  id : Str
  text : Str
  repeatIntervalHours : Int
  totalCompletions : Int
  lastCompleted : Option Str
  notes : List Note
deriving Repr, DecidableEq

/-- A task tree node, from types.ts. -/
inductive Task where
  | mk (id : Str) (text : Str) (completed : Bool)
       (completedAt : Option Str) (notes : List Note)
       (children : List Task)
deriving Repr

def Task.id : Task → Str
  | .mk i _ _ _ _ _ => i

def Task.text : Task → Str
  | .mk _ t _ _ _ _ => t

def Task.completed : Task → Bool
  | .mk _ _ c _ _ _ => c

def Task.completedAt : Task → Option Str
  | .mk _ _ _ ca _ _ => ca

def Task.notes : Task → List Note
  | .mk _ _ _ _ n _ => n

def Task.children : Task → List Task
  | .mk _ _ _ _ _ ch => ch

/-- The persisted application state, from types.ts. -/
structure AppState where
  habits : List Habit
  tasks : List Task
deriving Repr

/-- Simultaneous induction principle for the nested task tree. -/
theorem task_induct (P : Task → Prop) (Q : List Task → Prop)
    (hmk : ∀ i x c ca n ch, Q ch → P (.mk i x c ca n ch))
    (hnil : Q [])
    (hcons : ∀ t ts, P t → Q ts → Q (t :: ts)) :
    ∀ t, P t :=
  fun t => @Task.rec P Q (fun i x c ca n ch ih => hmk i x c ca n ch ih) hnil
    (fun t ts iht ihts => hcons t ts iht ihts) t

/-- List form of the simultaneous induction principle for task trees. -/
theorem task_list_induct (P : Task → Prop) (Q : List Task → Prop)
    (hmk : ∀ i x c ca n ch, Q ch → P (.mk i x c ca n ch))
    (hnil : Q [])
    (hcons : ∀ t ts, P t → Q ts → Q (t :: ts)) :
    ∀ ts, Q ts :=
  fun ts => @Task.rec_1 P Q (fun i x c ca n ch ih => hmk i x c ca n ch ih) hnil
    (fun t ts iht ihts => hcons t ts iht ihts) ts

/-! ## The markdown codec, from src/lib/markdown.ts -/

/-- One serialized note line body: a pipe, the bracketed creation stamp, and
the note text (markdown.ts serializer). -/
def noteLine (n : Note) : Str :=
  "| [".data ++ n.createdAt ++ "] ".data ++ n.text

/-- Consecutive note lines, each indented by the given string and terminated
by a newline. -/
def notesBlock (pre : Str) : List Note → Str
  | [] => []
  | n :: ns => pre ++ noteLine n ++ ['\n'] ++ notesBlock pre ns

/-- The last-completed metadata value: the JavaScript expression
habit.lastCompleted logical-or never treats both null and the empty string
as absent. -/
def lastCompletedStr : Option Str → Str
  | none => "never".data
  | some s => if s.isEmpty then "never".data else s

/-- One serialized habit block (heading, fixed metadata lines, note lines,
blank line), from serializeToMarkdown. -/
def serializeHabit (h : Habit) : Str :=
  "## ".data ++ h.text ++ ['\n'] ++
  "- Interval: ".data ++ intToStr h.repeatIntervalHours ++ ['h', '\n'] ++
  "- Total Completions: ".data ++ intToStr h.totalCompletions ++ ['\n'] ++
  "- Last completed: ".data ++ lastCompletedStr h.lastCompleted ++ ['\n'] ++
  notesBlock [] h.notes ++ ['\n']

def habitsBlock : List Habit → Str
  | [] => []
  | h :: hs => serializeHabit h ++ habitsBlock hs

/-- The parenthesized completion date suffix of a checkbox line. -/
def completedDateStr : Option Str → Str
  | some d => " (".data ++ d ++ [')']
  | none => []

mutual

/-- The inner serializeTask closure of serializeToMarkdown: one checkbox
line at the given depth, the indented note lines, then the children one
level deeper. -/
def serializeTask (t : Task) (depth : Nat) : Str :=
  match t with
  | .mk _ text completed completedAt notes children =>
    List.replicate (2 * depth) ' ' ++ "- ".data ++
      (if completed then "[x]".data else "[ ]".data) ++ [' '] ++ text ++
      completedDateStr completedAt ++ ['\n'] ++
    notesBlock (List.replicate (2 * depth) ' ' ++ "  ".data) notes ++
    serializeTaskList children (depth + 1)

def serializeTaskList (ts : List Task) (depth : Nat) : Str :=
  match ts with
  | [] => []
  | t :: ts => serializeTask t depth ++ serializeTaskList ts depth

end

/-- One serialized top-level task block: heading, optional status line, note
lines, children serialized from depth zero, blank line. -/
def serializeTopTask (t : Task) : Str :=
  match t with
  | .mk _ text completed completedAt notes children =>
    "## ".data ++ text ++ ['\n'] ++
    (if completed then
      "- Status: completed".data ++ completedDateStr completedAt ++ ['\n']
    else []) ++
    notesBlock [] notes ++
    serializeTaskList children 0 ++ ['\n']

def topTasksBlock : List Task → Str
  | [] => []
  | t :: ts => serializeTopTask t ++ topTasksBlock ts

/-- serializeToMarkdown from markdown.ts: the habits section, a separator,
and the tasks section. -/
def serializeToMarkdown (habits : List Habit) (tasks : List Task) : Str :=
  "# Habits\n\n".data ++ habitsBlock habits ++
  "---\n\n# Tasks\n\n".data ++ topTasksBlock tasks

/-- Split on the newline character, as String.prototype.split produces
(an empty trailing field included). -/
def splitNl : Str → List Str
  | [] => [[]]
  | c :: rest =>
    if c = '\n' then [] :: splitNl rest
    else
      match splitNl rest with
      | [] => [[c]]
      | l :: ls => (c :: l) :: ls

/-- Whether a ten character string has the shape of four digits, a dash,
two digits, a dash, and two digits. -/
def dateShape (s : Str) : Bool :=
  match s with
  | [a, b, c, d, e, f, g, h, i, j] =>
    a.isDigit && b.isDigit && c.isDigit && d.isDigit && e = '-' &&
    f.isDigit && g.isDigit && h = '-' && i.isDigit && j.isDigit
  | _ => false

/-- Leftmost match of the regex for a parenthesized date anywhere in the
line, as used by the status line of the task section. -/
def findDateParen : Str → Option Str
  | [] => none
  | '(' :: rest =>
    match rest with
    | c1 :: c2 :: c3 :: c4 :: c5 :: c6 :: c7 :: c8 :: c9 :: c10 :: ')' :: _ =>
      if dateShape [c1, c2, c3, c4, c5, c6, c7, c8, c9, c10] then
        some [c1, c2, c3, c4, c5, c6, c7, c8, c9, c10]
      else findDateParen rest
    | _ => findDateParen rest
  | _ :: rest => findDateParen rest

/-- Whether the whole string matches whitespace-plus followed by a
parenthesized date, returning the date: the optional tail group of the
checkbox regex. -/
def dateSuffix (s : Str) : Option Str :=
  match s with
  | [] => none
  | c :: _ =>
    if jsWs c then
      match s.dropWhile jsWs with
      | ['(', c1, c2, c3, c4, c5, c6, c7, c8, c9, c10, ')'] =>
        if dateShape [c1, c2, c3, c4, c5, c6, c7, c8, c9, c10] then
          some [c1, c2, c3, c4, c5, c6, c7, c8, c9, c10]
        else none
      | _ => none
    else none

/-- One acceptance test of the lazy checkbox scan: a date suffix ends the
text group here; otherwise the text group must take the next character,
which it can only do when the regex dot matches it — on a line terminator
the whole match fails, and the source drops the line. -/
def cbStep (acc : Str) (c : Char) (r : Str)
    (next : Option (Str × Option Str)) : Option (Str × Option Str) :=
  match dateSuffix (c :: r) with
  | some d => some (acc, some d)
  | none => if jsDot c then next else none

/-- Lazy scan of the checkbox regex: the text group grows one character at
a time until the remainder is accepted as either the end of the line or
whitespace plus a parenthesized completion date. -/
def splitCbGo (acc : Str) : Str → Option (Str × Option Str)
  | [] => some (acc, none)
  | c :: r => cbStep acc c r (splitCbGo (acc ++ [c]) r)

def splitCb : Str → Option (Str × Option Str)
  | [] => none
  | c :: r => if jsDot c then splitCbGo [c] r else none

/-- The guard regex of the checkbox branch: optional whitespace, a dash, a
space, a bracketed x or space, and a trailing space. -/
def checkboxGuard (line : Str) : Bool :=
  match line.dropWhile jsWs with
  | '-' :: ' ' :: '[' :: m :: ']' :: ' ' :: _ => m = 'x' || m = ' '
  | _ => false

/-- The capture assembly of the checkbox regex: indentation width of the
line, completion mark, task text, and optional completion date. -/
def cbMk (line : Str) (m : Char) (body : Str) : Option (Nat × Bool × Str × Option Str) :=
  if m = 'x' || m = ' ' then
    (splitCb body).map (fun p => ((line.takeWhile jsWs).length, m = 'x', p.1, p.2))
  else none

/-- The full checkbox regex: indentation width, completion mark, task text,
and optional completion date. -/
def checkboxFull (line : Str) : Option (Nat × Bool × Str × Option Str) :=
  match line.dropWhile jsWs with
  | '-' :: ' ' :: '[' :: m :: ']' :: ' ' :: body => cbMk line m body
  | _ => none

/-- Lazy scan of the note regex after the opening bracket: the shortest
nonempty stamp followed by a bracket-space separator and a nonempty text
every character of which the regex dot matches.  A failed acceptance
(empty stamp, empty text, or a line terminator in the text) extends the
stamp by one character — possible only when the dot matches that
character — and goes on scanning, exactly as regex backtracking does. -/
def bracketGo (acc : Str) : Str → Option (Str × Str)
  | [] => none
  | c :: r =>
    if c = ']' && r.head? == some ' ' && !acc.isEmpty && !(r.drop 1).isEmpty
        && (r.drop 1).all jsDot then
      some (acc, r.drop 1)
    else if jsDot c then bracketGo (acc ++ [c]) r
    else none

/-- The note regex of the parser applied to a line with its pipe prefix
removed. -/
def noteSplit (s : Str) : Option (Str × Str) :=
  match s with
  | '[' :: rest => bracketGo [] rest
  | _ => none

/-- String.prototype.trim. -/
def jsTrim (s : Str) : Str :=
  ((s.dropWhile jsWs).reverse.dropWhile jsWs).reverse

/-- The current section of the single forward pass of parseMarkdown. -/
inductive Sect where
  | habits
  | tasks
deriving Repr, DecidableEq

/-- A task frame on the ancestor stack.  The JavaScript parser mutates task
objects in place through stack references; here a frame carries the fields
of the task under construction, and a finished frame is folded into the
children list of the frame below it when the stack is popped. -/
structure PTask where
  id : Str
  text : Str
  completed : Bool
  completedAt : Option Str
  notes : List Note
  children : List Task
deriving Repr

def PTask.toTask (p : PTask) : Task :=
  .mk p.id p.text p.completed p.completedAt p.notes p.children

/-- Fold the top frame into the children of the frame below it: one pop of
the ancestor stack. -/
def collapseOnce : List PTask → List PTask
  | p :: q :: rest => { q with children := q.children ++ [p.toTask] } :: rest
  | s => s

/-- The stack adjustment loop of the checkbox branch: pop while the stack is
deeper than the indentation allows.  The JavaScript condition is
taskStack.length greater than depth plus one with depth the real-number
half of the indentation width; over the integers that condition is
two times (length minus one) greater than the indentation width. -/
def popToDepth (indentLen : Nat) : List PTask → List PTask
  | [] => []
  | [p] => [p]
  | p :: q :: rest =>
    if 2 * ((p :: q :: rest).length - 1) > indentLen then
      popToDepth indentLen (collapseOnce (p :: q :: rest))
    else p :: q :: rest
termination_by s => s.length
decreasing_by simp [collapseOnce]

/-- Fold the whole stack into the root task: the value of the currentTask
variable of the JavaScript parser, which aliases the bottom of the stack. -/
def collapseAll : List PTask → Option Task
  | [] => none
  | [p] => some p.toTask
  | p :: q :: rest => collapseAll ({ q with children := q.children ++ [p.toTask] } :: rest)
termination_by s => s.length
decreasing_by simp

/-- Apply a mutation to the task at the top of the ancestor stack. -/
def modifyTop (f : PTask → PTask) : List PTask → List PTask
  | [] => []
  | p :: rest => f p :: rest

/-- Apply a mutation to the root task (the bottom of the ancestor stack),
which the currentTask variable aliases. -/
def modifyBottom (f : PTask → PTask) : List PTask → List PTask
  | [] => []
  | [p] => [f p]
  | p :: rest => p :: modifyBottom f rest

/-- The parser state of the single forward pass: accumulated habits and
tasks, current section, pending habit, ancestor stack (top first; an empty
stack is the null currentTask), and the id supply counter. -/
structure PSt where
  habits : List Habit
  tasks : List Task
  sect : Option Sect
  curHabit : Option Habit
  stack : List PTask
  nextId : Nat
deriving Repr

def initPSt : PSt := ⟨[], [], none, none, [], 0⟩

/-- A habit freshly created at its heading line, with the default interval,
count, stamp, and notes. -/
def freshHabit (id text : Str) : Habit :=
  ⟨id, text, 24, 0, none, []⟩

/-- A task freshly created at a heading or checkbox line. -/
def freshPTask (id text : Str) (completed : Bool) (completedAt : Option Str) : PTask :=
  ⟨id, text, completed, completedAt, [], []⟩

/-- The habit metadata branch of the parser, applied to the pending habit
when the line is not a heading. -/
def habitLineStep (h : Habit) (line : Str) : Habit :=
  if ("- Interval: ".data).isPrefixOf line then
    { h with repeatIntervalHours := jsParseIntOr (line.drop 12) 24 }
  else if ("- Total Completions: ".data).isPrefixOf line then
    { h with totalCompletions := jsParseIntOr (line.drop 21) 0 }
  else if ("- Streak: ".data).isPrefixOf line then
    { h with totalCompletions := jsParseIntOr (line.drop 10) 0 }
  else if ("- Last completed: ".data).isPrefixOf line then
    { h with lastCompleted := if line.drop 18 = "never".data then none else some (line.drop 18) }
  else if line = "- Reflections:".data then h
  else if ("  - ".data).isPrefixOf line then
    { h with notes := h.notes ++ [⟨[], line.drop 4⟩] }
  else if ("| ".data).isPrefixOf line then
    match noteSplit (line.drop 2) with
    | some (ca, tx) => { h with notes := h.notes ++ [⟨ca, tx⟩] }
    | none => h
  else h

/-- Mark the root task completed, taking the completion date from the
first parenthesized date on the line if any. -/
def statusUpdate (md : Option Str) (r : PTask) : PTask :=
  { r with completed := true,
           completedAt := match md with | some d => some d | none => r.completedAt }

/-- Append a note to a task frame. -/
def addNote (nt : Note) (r : PTask) : PTask :=
  { r with notes := r.notes ++ [nt] }

/-- The task branches of the parser for a non-heading line when a current
task exists (nonempty ancestor stack). -/
def taskLineStep (gen : Nat → Str) (st : PSt) (line : Str) : PSt :=
  if ("- Status: completed".data).isPrefixOf line then
    { st with stack := modifyBottom (statusUpdate (findDateParen line)) st.stack }
  else if ("> ".data).isPrefixOf line && st.stack.length == 1 then
    { st with stack := modifyBottom (addNote ⟨[], line.drop 2⟩) st.stack }
  else if ("| ".data).isPrefixOf line && st.stack.length == 1 then
    match noteSplit (line.drop 2) with
    | some (ca, tx) =>
      { st with stack := modifyBottom (addNote ⟨ca, tx⟩) st.stack }
    | none => st
  else if checkboxGuard line then
    match checkboxFull line with
    | some (ind, cmp, tx, date) =>
      { st with stack := freshPTask (gen st.nextId) tx cmp date :: popToDepth ind st.stack,
                nextId := st.nextId + 1 }
    | none => st
  else if ("> ".data).isPrefixOf (line.dropWhile jsWs) then
    if st.stack.length > 0 then
      { st with stack := modifyTop (addNote ⟨[], (jsTrim line).drop 2⟩) st.stack }
    else st
  else if ("| ".data).isPrefixOf (line.dropWhile jsWs) then
    match noteSplit ((jsTrim line).drop 2) with
    | some (ca, tx) =>
      if st.stack.length > 0 then
        { st with stack := modifyTop (addNote ⟨ca, tx⟩) st.stack }
      else st
    | none => st
  else st

/-- The loop body of parseMarkdown for one line. -/
def lineStep (gen : Nat → Str) (st : PSt) (line : Str) : PSt :=
  if line = "# Habits".data then { st with sect := some .habits }
  else if line = "# Tasks".data then
    match st.curHabit with
    | some h => { st with habits := st.habits ++ [h], curHabit := none, sect := some .tasks }
    | none => { st with sect := some .tasks }
  else if line = "---".data then st
  else if st.sect = some .habits then
    (if ("## ".data).isPrefixOf line then
      { st with habits := st.habits ++ (match st.curHabit with | some h => [h] | none => []),
                curHabit := some (freshHabit (gen st.nextId) (line.drop 3)),
                nextId := st.nextId + 1 }
    else
      match st.curHabit with
      | some h => { st with curHabit := some (habitLineStep h line) }
      | none => st)
  else if st.sect = some .tasks then
    (if ("## ".data).isPrefixOf line then
      { st with tasks := st.tasks ++ (match collapseAll st.stack with | some t => [t] | none => []),
                stack := [freshPTask (gen st.nextId) (line.drop 3) false none],
                nextId := st.nextId + 1 }
    else
      if st.stack.isEmpty then st
      else taskLineStep gen st line)
  else st

/-- The final flush of parseMarkdown: the pending habit or the pending task
tree of the last open section is pushed. -/
def finalizeState (st : PSt) : AppState :=
  match st.sect with
  | some .habits =>
    ⟨st.habits ++ (match st.curHabit with | some h => [h] | none => []), st.tasks⟩
  | some .tasks =>
    ⟨st.habits, st.tasks ++ (match collapseAll st.stack with | some t => [t] | none => [])⟩
  | none => ⟨st.habits, st.tasks⟩

/-- parseMarkdown from markdown.ts, parameterized by the id supply that
models generateId. -/
def parseMarkdown (gen : Nat → Str) (md : Str) : AppState :=
  finalizeState ((splitNl md).foldl (lineStep gen) initPSt)

/-! ## Crash-checked variant of the parser.

The JavaScript parser indexes the ancestor stack at length minus one and
mutates the result; on an empty array that is an undefined access and a
crash.  The checked step returns none exactly where the original code
would perform such an access on an empty stack, so totality of the
checked run is the no-crash property. -/

def modifyTopChecked (f : PTask → PTask) : List PTask → Option (List PTask)
  | [] => none
  | p :: rest => some (f p :: rest)

def modifyBottomChecked (f : PTask → PTask) : List PTask → Option (List PTask)
  | [] => none
  | [p] => some [f p]
  | p :: rest => (modifyBottomChecked f rest).map (fun l => p :: l)

/-- taskLineStep with every stack access checked. -/
def taskLineStepChecked (gen : Nat → Str) (st : PSt) (line : Str) : Option PSt :=
  if ("- Status: completed".data).isPrefixOf line then
    (modifyBottomChecked (statusUpdate (findDateParen line)) st.stack).map
      (fun s => { st with stack := s })
  else if ("> ".data).isPrefixOf line && st.stack.length == 1 then
    (modifyBottomChecked (addNote ⟨[], line.drop 2⟩) st.stack).map
      (fun s => { st with stack := s })
  else if ("| ".data).isPrefixOf line && st.stack.length == 1 then
    match noteSplit (line.drop 2) with
    | some (ca, tx) =>
      (modifyBottomChecked (addNote ⟨ca, tx⟩) st.stack).map
        (fun s => { st with stack := s })
    | none => some st
  else if checkboxGuard line then
    match checkboxFull line with
    | some (ind, cmp, tx, date) =>
      match popToDepth ind st.stack with
      | [] => none
      | parent :: rest =>
        some { st with stack := freshPTask (gen st.nextId) tx cmp date :: parent :: rest,
                       nextId := st.nextId + 1 }
    | none => some st
  else if ("> ".data).isPrefixOf (line.dropWhile jsWs) then
    if st.stack.length > 0 then
      (modifyTopChecked (addNote ⟨[], (jsTrim line).drop 2⟩) st.stack).map
        (fun s => { st with stack := s })
    else some st
  else if ("| ".data).isPrefixOf (line.dropWhile jsWs) then
    match noteSplit ((jsTrim line).drop 2) with
    | some (ca, tx) =>
      if st.stack.length > 0 then
        (modifyTopChecked (addNote ⟨ca, tx⟩) st.stack).map
          (fun s => { st with stack := s })
      else some st
    | none => some st
  else some st

/-- lineStep with every stack access checked. -/
def lineStepChecked (gen : Nat → Str) (st : PSt) (line : Str) : Option PSt :=
  if line = "# Habits".data then some { st with sect := some .habits }
  else if line = "# Tasks".data then
    match st.curHabit with
    | some h => some { st with habits := st.habits ++ [h], curHabit := none, sect := some .tasks }
    | none => some { st with sect := some .tasks }
  else if line = "---".data then some st
  else if st.sect = some .habits then
    (if ("## ".data).isPrefixOf line then
      some { st with habits := st.habits ++ (match st.curHabit with | some h => [h] | none => []),
                     curHabit := some (freshHabit (gen st.nextId) (line.drop 3)),
                     nextId := st.nextId + 1 }
    else
      match st.curHabit with
      | some h => some { st with curHabit := some (habitLineStep h line) }
      | none => some st)
  else if st.sect = some .tasks then
    (if ("## ".data).isPrefixOf line then
      some { st with tasks := st.tasks ++ (match collapseAll st.stack with | some t => [t] | none => []),
                     stack := [freshPTask (gen st.nextId) (line.drop 3) false none],
                     nextId := st.nextId + 1 }
    else
      if st.stack.isEmpty then some st
      else taskLineStepChecked gen st line)
  else some st

/-- The whole parse with every stack access checked: none would mean a
crash on some line. -/
def parseMarkdownChecked (gen : Nat → Str) (md : Str) : Option AppState :=
  ((splitNl md).foldlM (lineStepChecked gen) initPSt).map finalizeState

/-! ## Monthly filtering, from the filterCurrentTasks logic of
src/lib/storage.test.ts (the test-file copy of the storage logic). -/

mutual

/-- The inner filterTask closure: keep an incomplete node or a node whose
completedAt starts with the current month, filtering its children; drop
any other completed node together with its subtree. -/
def filterTask (currentMonth : Str) (t : Task) : Option Task :=
  match t with
  | .mk id text completed completedAt notes children =>
    if !completed then
      some (.mk id text completed completedAt notes (filterTaskList currentMonth children))
    else
      match completedAt with
      | some d =>
        if currentMonth.isPrefixOf d then
          some (.mk id text completed completedAt notes (filterTaskList currentMonth children))
        else none
      | none => none

def filterTaskList (currentMonth : Str) : List Task → List Task
  | [] => []
  | t :: ts =>
    match filterTask currentMonth t with
    | some u => u :: filterTaskList currentMonth ts
    | none => filterTaskList currentMonth ts

end

/-- filterCurrentTasks from storage.test.ts, with the current month string
passed explicitly in place of the clock. -/
def filterCurrentTasks (currentMonth : Str) (tasks : List Task) : List Task :=
  filterTaskList currentMonth tasks

/-! ## Logical equivalence up to ids -/

def stripHabit (h : Habit) : Habit := { h with id := [] }

mutual

/-- Erase every id in a task tree; two trees with equal stripTask images
agree on text, completed, completedAt, notes, and children structure. -/
def stripTask : Task → Task
  | .mk _ text completed completedAt notes children =>
    .mk [] text completed completedAt notes (stripTaskList children)

def stripTaskList : List Task → List Task
  | [] => []
  | t :: ts => stripTask t :: stripTaskList ts

end

def stripState (s : AppState) : AppState :=
  ⟨s.habits.map stripHabit, stripTaskList s.tasks⟩

/-! ## Well-formed states.

The spec quantifies its round-trip laws over well-formed states.  The
grammar of markdown.ts cannot represent every string (a newline in a text
would open a new line; a carriage return or a line or paragraph separator
in a regex-matched text makes the checkbox or note regex fail, since the
JavaScript dot excludes all four line terminators, and the parser then
drops the whole line; a note stamp containing the bracket-space separator
would cut the stamp short; an integer at or beyond 2 to the 53rd is not
printed back exactly by JavaScript), so well-formedness pins down the
states the format can faithfully carry. -/

def noNl (s : Str) : Bool := !s.contains '\n'

/-- Every character of the string can be matched by the regex dot: no line
terminator anywhere.  The text groups of the checkbox and note regexes can
only carry such strings; a serialized text with a carriage return or a
line or paragraph separator makes the regex match fail and the parser drop
the whole line. -/
def dotOnly (s : Str) : Bool := s.all jsDot

/-- No occurrence of the bracket-space separator. -/
def sepFree : Str → Bool
  | [] => true
  | c :: r => !(c = ']' && r.head? == some ' ') && sepFree r

/-- The last character, if any, is not whitespace. -/
def noTrailWs (s : Str) : Bool :=
  match s.getLast? with
  | none => true
  | some c => !jsWs c

/-- No proper suffix of the string matches whitespace-plus followed by a
parenthesized date (such a suffix would be eaten as a completion date by
the lazy checkbox regex). -/
def dateTailFree : Str → Bool
  | [] => true
  | _ :: r => (dateSuffix r).isNone && dateTailFree r

def wfNote (n : Note) : Bool :=
  !n.createdAt.isEmpty && noNl n.createdAt && sepFree n.createdAt &&
  !n.text.isEmpty && noNl n.text && noTrailWs n.text &&
  dotOnly n.createdAt && dotOnly n.text

def wfHabit (h : Habit) : Bool :=
  noNl h.text &&
  decide (0 < h.repeatIntervalHours) && decide (0 ≤ h.totalCompletions) &&
  decide (h.repeatIntervalHours < 9007199254740992) &&
  decide (h.totalCompletions < 9007199254740992) &&
  (match h.lastCompleted with
   | none => true
   | some s => !s.isEmpty && s ≠ "never".data && noNl s) &&
  h.notes.all wfNote

def wfTaskText (s : Str) : Bool :=
  !s.isEmpty && noNl s && noTrailWs s && dateTailFree s && dotOnly s

mutual

def wfTask : Task → Bool
  | .mk _ text completed completedAt notes children =>
    wfTaskText text &&
    (completed || completedAt.isNone) &&
    (match completedAt with | none => true | some d => dateShape d) &&
    notes.all wfNote &&
    wfTaskList children

def wfTaskList : List Task → Bool
  | [] => true
  | t :: ts => wfTask t && wfTaskList ts

end

def wfState (s : AppState) : Bool :=
  s.habits.all wfHabit && wfTaskList s.tasks

/-! ## Storage layer.

The storage module itself is not among the provided sources; only its
tests are.  The definitions below are therefore modelled from the spec
(sections 4.2, 4.3, 4.5 and 8) and validated against the behavior the
test files assert.  The codec they call is the real one above. -/

/-- Strict lexicographic order on character lists; on the fixed-width
digit strings YYYY-MM it coincides with chronological order. -/
def strLtB : Str → Str → Bool
  | [], [] => false
  | [], _ :: _ => true
  | _ :: _, [] => false
  | a :: as, b :: bs => if a < b then true else if b < a then false else strLtB as bs

/-- The year-month of a date string. -/
def ymOf (d : Str) : Str := d.take 7

/-- Modelled from the spec: a node is archived if and only if it is
completed and the year-month of its own completedAt is strictly earlier
than the current year-month (spec section 4.3). -/
def qualifiesArchive (cm : Str) (t : Task) : Bool :=
  t.completed && (match t.completedAt with
                  | some d => strLtB (ymOf d) cm
                  | none => false)

mutual

/-- Modelled from the spec: the qualifying blocks of the forest, each
tagged with its archival month bucket, gathered per node. -/
def collectOldTask (cm : Str) : Task → List (Str × Task)
  | .mk i x cp ca n ch =>
    (if qualifiesArchive cm (.mk i x cp ca n ch) then
      [(ymOf (ca.getD []), Task.mk i x cp ca n ch)]
    else []) ++ collectOldList cm ch

def collectOldList (cm : Str) : List Task → List (Str × Task)
  | [] => []
  | t :: ts => collectOldTask cm t ++ collectOldList cm ts

end

/-- Result of one filesystem operation; err models a thrown exception. -/
inductive FsRes (α : Type) where
  | ok (val : α)
  | err
deriving Repr, DecidableEq

/-- The filesystem capability the storage layer consumes (exists,
read-text, write-text), modelled as a fixed behavior per path. -/
structure Fs where
  fileExists : Str → FsRes Bool
  readFile : Str → FsRes Str
  writeFile : Str → Str → FsRes Unit

/-- Helper map on FsRes. -/
def FsRes.map {α β : Type} (f : α → β) : FsRes α → FsRes β
  | .ok a => .ok (f a)
  | .err => .err

def genDefault : Nat → Str := fun n => natToStr n

def archivePath (mon : Str) : Str := "archive-".data ++ mon ++ ".md".data

/-- Modelled from the spec: the content written for one month bucket; an
existing archive file is parsed and the new blocks are appended, never
overwritten (spec section 4.3). -/
def mergedArchive (existing : Option Str) (blocks : List Task) : Str :=
  match existing with
  | some content =>
    serializeToMarkdown [] ((parseMarkdown genDefault content).tasks ++ blocks)
  | none => serializeToMarkdown [] blocks

/-- Modelled from the spec: process the month buckets in order; any
filesystem error aborts the whole run. -/
def archiveRun (fs : Fs) (blocksFor : Str → List Task) : List Str → FsRes (List (Str × Str))
  | [] => .ok []
  | mon :: rest =>
    match fs.fileExists (archivePath mon) with
    | .err => .err
    | .ok ex =>
      match (if ex then (fs.readFile (archivePath mon)).map some else .ok none) with
      | .err => .err
      | .ok existing =>
        let content := mergedArchive existing (blocksFor mon)
        match fs.writeFile (archivePath mon) content with
        | .err => .err
        | .ok _ =>
          match archiveRun fs blocksFor rest with
          | .err => .err
          | .ok ws => .ok ((archivePath mon, content) :: ws)

/-- Modelled from the spec: archiveOldCompletedTasks walks the task
forest, writes the qualifying blocks into their month archives, and
returns the pruned state; on any I/O error it returns the original state
unchanged (spec sections 4.3 and 7).  The pruning itself is the real
filterCurrentTasks logic from the sources. -/
def archiveBlocksFor (cm : Str) (s : AppState) (mon : Str) : List Task :=
  ((collectOldList cm s.tasks).filter (fun pr => pr.1 = mon)).map (fun pr => pr.2)

def archiveMonths (cm : Str) (s : AppState) : List Str :=
  ((collectOldList cm s.tasks).map (fun pr => pr.1)).dedup

def archiveOldCompletedTasks (fs : Fs) (cm : Str) (s : AppState) :
    AppState × List (Str × Str) :=
  if (collectOldList cm s.tasks).isEmpty then (s, [])
  else
    match archiveRun fs (archiveBlocksFor cm s) (archiveMonths cm s) with
    | .ok writes => (⟨s.habits, filterCurrentTasks cm s.tasks⟩, writes)
    | .err => (s, [])

/-- Modelled from the spec: the shared last-self-written-content marker
that ties the store and the watcher together (spec sections 4.2 and 4.5). -/
structure WatcherSt where
  lastWritten : Str
deriving Repr, DecidableEq

/-- Modelled from the spec: save serializes the state, writes it, and
records the exact text written in the shared marker. -/
def saveCurrentState (s : AppState) : WatcherSt × Str :=
  (⟨serializeToMarkdown s.habits s.tasks⟩, serializeToMarkdown s.habits s.tasks)

/-- Modelled from the spec: one watcher tick compares the file content
byte for byte against the marker; on equality it is a no-op, otherwise it
parses the text, reports the parsed state, and moves the marker. -/
def pollTick (gen : Nat → Str) (w : WatcherSt) (content : Str) :
    WatcherSt × Option AppState :=
  if content = w.lastWritten then (w, none)
  else (⟨content⟩, some (parseMarkdown gen content))

/-- Modelled from the spec: load reads the current-state file; a read
failure is the distinct no-state outcome (none); a successful read parses
the text and seeds the marker with what was read. -/
def loadCurrentState (gen : Nat → Str) (readResult : FsRes Str) :
    Option (AppState × WatcherSt) :=
  match readResult with
  | .err => none
  | .ok content => some (parseMarkdown gen content, ⟨content⟩)

/-! ## Generic helper lemmas -/

theorem pfx_append_cases {p q r : Str} (h : p <+: q ++ r) : p <+: q ∨ q <+: p := by
  rcases Nat.le_total p.length q.length with hle | hle
  · left
    have h1 : p = (q ++ r).take p.length := List.prefix_iff_eq_take.mp h
    rw [List.take_append_of_le_length hle] at h1
    rw [h1]
    exact List.take_prefix _ _
  · right
    rcases h with ⟨t, ht⟩
    have h1 : q = (q ++ r).take q.length := by simp
    rw [← ht, List.take_append_of_le_length hle] at h1
    rw [h1]
    exact List.take_prefix _ _

theorem not_isPrefixOf_append (p q : Str) {r : Str} (h1 : ¬ p <+: q) (h2 : ¬ q <+: p) :
    p.isPrefixOf (q ++ r) = false := by
  rw [Bool.eq_false_iff]
  intro hc
  rcases pfx_append_cases (List.isPrefixOf_iff_prefix.mp hc) with h | h
  · exact h1 h
  · exact h2 h

theorem isPrefixOf_append_self (p r : Str) : p.isPrefixOf (p ++ r) = true :=
  List.isPrefixOf_iff_prefix.mpr (List.prefix_append p r)

theorem append_ne_const {q r c : Str} (h : ¬ q <+: c) : q ++ r ≠ c := by
  intro he
  exact h (he ▸ List.prefix_append q r)

theorem drop_append_len {q : Str} (r : Str) (n : Nat) (h : q.length = n) :
    (q ++ r).drop n = r := by
  rw [← h, List.drop_left]

/-- Splitting a newline-free line off the front of the remaining text. -/
theorem splitNl_cons (l : Str) (rest : Str) (h : noNl l = true) :
    splitNl (l ++ '\n' :: rest) = l :: splitNl rest := by
  induction l with
  | nil => simp [splitNl]
  | cons c cs ih =>
    have hc : c ≠ '\n' := by
      intro he
      simp [noNl, he] at h
    have hcs : noNl cs = true := by
      simp [noNl] at h ⊢
      exact h.2
    simp only [List.cons_append, splitNl, if_neg hc]
    rw [show cs.append ('\n' :: rest) = cs ++ '\n' :: rest from rfl, ih hcs]

theorem splitNl_nil : splitNl [] = [[]] := rfl

/-! ## Inversion of the parseInt model on rendered integers -/

theorem digitChar_mem_digits (n : Nat) : digitChar n ∈ "0123456789".data := by
  unfold digitChar
  split <;> decide

theorem digitChar_eq_zero {n : Nat} (h : digitChar n = '0') : n = 0 := by
  unfold digitChar at h
  split at h
  · rfl
  all_goals exact absurd h (by decide)

theorem digitVal_digitChar {d : Nat} (h : d < 10) : digitVal (digitChar d) = d := by
  interval_cases d <;> decide

theorem natToStr_ne_nil (n : Nat) : natToStr n ≠ [] := by
  unfold natToStr
  split
  · simp
  · simp

theorem natToStr_mem_digits (n : Nat) : ∀ c ∈ natToStr n, c ∈ "0123456789".data := by
  induction n using Nat.strong_induction_on with
  | _ n ih =>
    unfold natToStr
    split
    · intro c hc
      simp at hc
      exact hc ▸ digitChar_mem_digits n
    · intro c hc
      rcases List.mem_append.mp hc with h | h
      · exact ih (n / 10) (Nat.div_lt_self (by omega) (by omega)) c h
      · simp at h
        exact h ▸ digitChar_mem_digits (n % 10)

theorem mem_digits_isDigit {c : Char} (h : c ∈ "0123456789".data) : c.isDigit = true := by
  fin_cases h <;> decide

theorem mem_digits_not_jsWs {c : Char} (h : c ∈ "0123456789".data) : jsWs c = false := by
  fin_cases h <;> decide

theorem natToStr_head_ne_zero {n : Nat} (hn : 0 < n) :
    ∀ t, natToStr n ≠ '0' :: t := by
  induction n using Nat.strong_induction_on with
  | _ n ih =>
    unfold natToStr
    split
    · intro t he
      simp at he
      exact absurd (digitChar_eq_zero he.1) (by omega)
    · intro t he
      rename_i hge
      rcases hd : natToStr (n / 10) with _ | ⟨c, r⟩
      · exact absurd hd (natToStr_ne_nil _)
      · rw [hd] at he
        simp at he
        exact ih (n / 10) (Nat.div_lt_self (by omega) (by omega))
          (by omega) r (by rw [hd, he.1])

theorem natToStr_foldl (n : Nat) : ∀ acc : Nat,
    (natToStr n).foldl (fun a c => 10 * a + digitVal c) acc =
      acc * 10 ^ (natToStr n).length + n := by
  induction n using Nat.strong_induction_on with
  | _ n ih =>
    intro acc
    unfold natToStr
    split
    · rename_i h
      simp [digitVal_digitChar h]
      omega
    · rename_i h
      rw [List.foldl_append, ih (n / 10) (Nat.div_lt_self (by omega) (by omega))]
      simp [digitVal_digitChar (Nat.mod_lt n (by omega))]
      ring_nf
      omega

theorem takeWhile_append_all {p : Char → Bool} {xs ys : Str}
    (hall : ∀ a ∈ xs, p a = true)
    (hhd : ∀ c, ys.head? = some c → p c = false) :
    (xs ++ ys).takeWhile p = xs := by
  induction xs with
  | nil =>
    simp only [List.nil_append]
    cases ys with
    | nil => rfl
    | cons c r =>
      rw [List.takeWhile_cons]
      simp [hhd c rfl]
  | cons x xs ih =>
    simp only [List.cons_append, List.takeWhile_cons, hall x (by simp), if_true]
    rw [ih (fun a ha => hall a (by simp [ha]))]

theorem digitsVal_natToStr (n : Nat) (rest : Str)
    (hhd : ∀ c, rest.head? = some c → c.isDigit = false) :
    digitsVal (natToStr n ++ rest) = some n := by
  unfold digitsVal
  rw [takeWhile_append_all (fun a ha => mem_digits_isDigit (natToStr_mem_digits n a ha)) hhd]
  have hne : (natToStr n).isEmpty = false := by
    cases h : natToStr n with
    | nil => exact absurd h (natToStr_ne_nil n)
    | cons c r => rfl
  simp only [hne, if_neg, Bool.false_eq_true, not_false_eq_true]
  rw [natToStr_foldl]
  simp

theorem natPart_eq_digitsVal {s : Str}
    (h1 : ∀ r, s ≠ '0' :: 'x' :: r) (h2 : ∀ r, s ≠ '0' :: 'X' :: r) :
    natPart s = digitsVal s := by
  unfold natPart
  split
  · rename_i r
    exact absurd rfl (h1 r)
  · rename_i r
    exact absurd rfl (h2 r)
  · rfl

/-- parseInt applied to a rendered natural followed by a non-digit,
non-hex-marker tail reads back the natural. -/
theorem jsParseInt_natToStr (n : Nat) (rest : Str)
    (hd : ∀ c, rest.head? = some c → c.isDigit = false)
    (hx : ∀ c, rest.head? = some c → c ≠ 'x' ∧ c ≠ 'X') :
    jsParseInt (natToStr n ++ rest) = some (n : Int) := by
  rcases hns : natToStr n with _ | ⟨c, t⟩
  · exact absurd hns (natToStr_ne_nil n)
  have hcmem : c ∈ "0123456789".data := natToStr_mem_digits n c (by rw [hns]; simp)
  have hnws : jsWs c = false := mem_digits_not_jsWs hcmem
  have hdrop : ((c :: t) ++ rest).dropWhile jsWs = c :: (t ++ rest) := by
    simp [List.dropWhile_cons, hnws]
  have hnp : natPart (c :: (t ++ rest)) = digitsVal (c :: (t ++ rest)) := by
    apply natPart_eq_digitsVal
    · intro r he
      have hc0 : c = '0' := (List.cons.injEq _ _ _ _).mp he |>.1
      rcases Nat.eq_zero_or_pos n with hn0 | hnpos
      · subst hn0
        have hz : natToStr 0 = ['0'] := by unfold natToStr; decide
        rw [hz] at hns
        have ht : t = [] := by
          have := ((List.cons.injEq _ _ _ _).mp hns).2
          exact this.symm
        subst ht
        simp only [List.nil_append] at he
        have he2 := ((List.cons.injEq _ _ _ _).mp he).2
        rcases rest with _ | ⟨c2, r2⟩
        · exact absurd he2 (by simp)
        · have hc2 : c2 = 'x' := ((List.cons.injEq _ _ _ _).mp he2).1
          exact (hx c2 rfl).1 hc2
      · exact absurd (hc0 ▸ hns) (natToStr_head_ne_zero hnpos t)
    · intro r he
      have hc0 : c = '0' := (List.cons.injEq _ _ _ _).mp he |>.1
      rcases Nat.eq_zero_or_pos n with hn0 | hnpos
      · subst hn0
        have hz : natToStr 0 = ['0'] := by unfold natToStr; decide
        rw [hz] at hns
        have ht : t = [] := by
          have := ((List.cons.injEq _ _ _ _).mp hns).2
          exact this.symm
        subst ht
        simp only [List.nil_append] at he
        have he2 := ((List.cons.injEq _ _ _ _).mp he).2
        rcases rest with _ | ⟨c2, r2⟩
        · exact absurd he2 (by simp)
        · have hc2 : c2 = 'X' := ((List.cons.injEq _ _ _ _).mp he2).1
          exact (hx c2 rfl).2 hc2
      · exact absurd (hc0 ▸ hns) (natToStr_head_ne_zero hnpos t)
  have hdv : digitsVal (c :: (t ++ rest)) = some n := by
    have heq : c :: (t ++ rest) = natToStr n ++ rest := by rw [hns]; rfl
    rw [heq]
    exact digitsVal_natToStr n rest hd
  unfold jsParseInt
  rw [hdrop]
  have hcne1 : c ≠ '-' := by
    intro he
    rw [he] at hcmem
    exact absurd hcmem (by decide)
  have hcne2 : c ≠ '+' := by
    intro he
    rw [he] at hcmem
    exact absurd hcmem (by decide)
  split
  · rename_i heq
    exact absurd ((List.cons.injEq _ _ _ _).mp heq.symm).1.symm hcne1
  · rename_i heq
    exact absurd ((List.cons.injEq _ _ _ _).mp heq.symm).1.symm hcne2
  · rw [hnp, hdv]
    rfl

/-- The interval metadata line reads back a positive integral interval
(an h character follows the number). -/
theorem jsParseIntOr_interval {i : Int} (hpos : 0 < i) :
    jsParseIntOr (intToStr i ++ ['h']) 24 = i := by
  unfold intToStr
  rw [if_neg (by omega)]
  unfold jsParseIntOr
  rw [jsParseInt_natToStr i.toNat ['h'] (by intro c hc; simp at hc; rw [← hc]; decide)
    (by intro c hc; simp at hc; rw [← hc]; decide)]
  have h2 : (i.toNat : Int) = i := Int.toNat_of_nonneg (by omega)
  rw [h2]
  show (if i = 0 then 24 else i) = i
  rw [if_neg (by omega)]

/-- The total-completions metadata line reads back a non-negative integral
count; the zero-falls-to-default fallback is harmless there because the
default is also zero. -/
theorem jsParseIntOr_completions {i : Int} (hnn : 0 ≤ i) :
    jsParseIntOr (intToStr i) 0 = i := by
  unfold intToStr
  rw [if_neg (by omega)]
  unfold jsParseIntOr
  have hjs := jsParseInt_natToStr i.toNat [] (by intro c hc; simp at hc)
    (by intro c hc; simp at hc)
  rw [List.append_nil] at hjs
  rw [hjs]
  have h2 : (i.toNat : Int) = i := Int.toNat_of_nonneg hnn
  rw [h2]
  show (if i = 0 then 0 else i) = i
  by_cases hz : i = 0
  · rw [if_pos hz, hz]
  · rw [if_neg hz]

/-! ## Behavior of the regex models on serialized fragments -/

theorem sepFree_tail {c : Char} {r : Str} (h : sepFree (c :: r) = true) :
    sepFree r = true := by
  unfold sepFree at h
  rw [Bool.and_eq_true] at h
  exact h.2

theorem noTrailWs_tail {c : Char} {r : Str} (h : noTrailWs (c :: r) = true) :
    noTrailWs r = true := by
  cases r with
  | nil => rfl
  | cons c2 r2 =>
    unfold noTrailWs at h ⊢
    rwa [List.getLast?_cons_cons] at h

/-- On a nonempty string whose last character is not whitespace, dropping
leading whitespace cannot exhaust the string. -/
theorem dropWhile_ne_nil_of_noTrailWs {u : Str} (hne : u ≠ [])
    (h : noTrailWs u = true) : u.dropWhile jsWs ≠ [] := by
  intro hd
  have hall : ∀ x ∈ u, jsWs x = true := by
    intro x hx
    have := List.dropWhile_eq_nil_iff.mp hd
    simpa using this x hx
  have hc := List.getLast?_eq_getLast_of_ne_nil hne
  have hmem : u.getLast hne ∈ u := List.getLast_mem hne
  unfold noTrailWs at h
  rw [hc] at h
  simp at h
  rw [hall _ hmem] at h
  exact absurd h (by simp)

theorem dropWhile_append_of_ne_nil {p : Char → Bool} {xs : Str} (ys : Str)
    (h : xs.dropWhile p ≠ []) :
    (xs ++ ys).dropWhile p = xs.dropWhile p ++ ys := by
  induction xs with
  | nil => exact absurd rfl h
  | cons x xs ih =>
    by_cases hp : p x = true
    · simp only [List.cons_append, List.dropWhile_cons, hp, if_true]
      apply ih
      intro hc
      apply h
      simp [List.dropWhile_cons, hp, hc]
    · have hp2 : p x = false := by simp [Bool.eq_false_iff, hp]
      simp [List.cons_append, List.dropWhile_cons, hp2]

/-- Every date-shaped string is literally a ten element list. -/
theorem dateShape_elim {d : Str} (h : dateShape d = true) :
    ∃ c1 c2 c3 c4 c5 c6 c7 c8 c9 c10,
      d = [c1, c2, c3, c4, c5, c6, c7, c8, c9, c10] :=
  match d, h with
  | [c1, c2, c3, c4, c5, c6, c7, c8, c9, c10], _ =>
    ⟨c1, c2, c3, c4, c5, c6, c7, c8, c9, c10, rfl⟩

theorem dateSuffix_space_date {d : Str} (hd : dateShape d = true) :
    dateSuffix (' ' :: '(' :: (d ++ [')'])) = some d := by
  rcases dateShape_elim hd with ⟨c1, c2, c3, c4, c5, c6, c7, c8, c9, c10, rfl⟩
  simp only [dateSuffix]
  rw [show jsWs ' ' = true from rfl, if_pos rfl]
  rw [show List.dropWhile jsWs
        (' ' :: '(' :: ([c1, c2, c3, c4, c5, c6, c7, c8, c9, c10] ++ [')'])) =
      '(' :: ([c1, c2, c3, c4, c5, c6, c7, c8, c9, c10] ++ [')']) from by
    rw [List.dropWhile_cons, show jsWs ' ' = true from rfl]
    simp only [if_true]
    rw [List.dropWhile_cons, show jsWs '(' = false from rfl]
    simp]
  simp only [List.cons_append, List.nil_append]
  rw [if_pos hd]

theorem dateSuffix_none_of_long {s : Str} (h : 13 ≤ (s.dropWhile jsWs).length) :
    dateSuffix s = none := by
  cases s with
  | nil => rfl
  | cons c r =>
    simp only [dateSuffix]
    by_cases hws : jsWs c = true
    · rw [if_pos hws]
      split
      · rename_i heq
        rw [heq] at h
        simp at h
      · rfl
    · rw [if_neg (by simp [hws])]

theorem findDateParen_cons_ne {c : Char} {rest : Str} (h : c ≠ '(') :
    findDateParen (c :: rest) = findDateParen rest := by
  conv_lhs => unfold findDateParen
  split
  · rename_i heq
    exact absurd heq (by simp)
  · rename_i heq
    exact absurd (((List.cons.injEq _ _ _ _).mp heq).1) h
  · rename_i heq
    rw [(((List.cons.injEq _ _ _ _).mp heq).2)]

theorem findDateParen_pre {pre : Str} (hpre : '(' ∉ pre) (rest : Str) :
    findDateParen (pre ++ rest) = findDateParen rest := by
  induction pre with
  | nil => rfl
  | cons c r ih =>
    have hc : c ≠ '(' := by
      intro he
      exact hpre (he ▸ List.mem_cons_self c r)
    rw [List.cons_append, findDateParen_cons_ne hc,
      ih (fun hm => hpre (List.mem_cons_of_mem _ hm))]

theorem findDateParen_at {d : Str} (hd : dateShape d = true) :
    findDateParen ('(' :: (d ++ [')'])) = some d := by
  rcases dateShape_elim hd with ⟨c1, c2, c3, c4, c5, c6, c7, c8, c9, c10, rfl⟩
  simp only [findDateParen, List.cons_append, List.nil_append]
  rw [if_pos hd]

theorem dotOnly_uncons {c : Char} {r : Str} (h : dotOnly (c :: r) = true) :
    jsDot c = true ∧ dotOnly r = true := by
  unfold dotOnly at h ⊢
  rw [List.all_cons, Bool.and_eq_true] at h
  exact h

theorem bracketGo_spec : ∀ (ca acc txt : Str),
    sepFree ca = true → dotOnly ca = true → acc ++ ca ≠ [] → txt ≠ [] →
    dotOnly txt = true →
    bracketGo acc (ca ++ ']' :: ' ' :: txt) = some (acc ++ ca, txt) := by
  intro ca
  induction ca with
  | nil =>
    intro acc txt _ _ hne htxt hdtxt
    rw [List.append_nil] at hne
    simp only [List.nil_append, List.append_nil]
    unfold bracketGo
    rw [if_pos]
    · simp
    · simp only [List.drop_succ_cons, List.drop_zero]
      simp [hne, htxt]
      intro x hx
      unfold dotOnly at hdtxt
      rw [List.all_eq_true] at hdtxt
      exact hdtxt x hx
  | cons c r ih =>
    intro acc txt hsep hdot hne htxt hdtxt
    unfold sepFree at hsep
    rw [Bool.and_eq_true] at hsep
    have h1 := hsep.1
    obtain ⟨hdc, hdr⟩ := dotOnly_uncons hdot
    simp only [List.cons_append]
    unfold bracketGo
    rw [if_neg]
    · rw [if_pos hdc]
      have := ih (acc ++ [c]) txt hsep.2 hdr (by simp) htxt hdtxt
      rw [this]
      simp
    · cases r with
      | nil => simp
      | cons c2 r2 =>
        intro hcond
        rw [Bool.and_eq_true, Bool.and_eq_true, Bool.and_eq_true,
          Bool.and_eq_true] at hcond
        have ha := hcond.1.1.1.1
        have hb := hcond.1.1.1.2
        simp at ha hb
        simp [ha, hb] at h1

theorem noteSplit_spec {ca txt : Str} (hca : ca ≠ []) (hsep : sepFree ca = true)
    (hdca : dotOnly ca = true) (htxt : txt ≠ []) (hdtxt : dotOnly txt = true) :
    noteSplit ('[' :: (ca ++ ']' :: ' ' :: txt)) = some (ca, txt) := by
  unfold noteSplit
  have := bracketGo_spec ca [] txt hsep hdca (by simpa) htxt hdtxt
  simpa using this

theorem splitCbGo_noDate : ∀ (rest acc : Str), acc ≠ [] →
    dateTailFree rest = true → dotOnly rest = true → dateSuffix rest = none →
    splitCbGo acc rest = some (acc ++ rest, none) := by
  intro rest
  induction rest with
  | nil =>
    intro acc hacc _ _ _
    simp [splitCbGo]
  | cons c r ih =>
    intro acc hacc htf hdot hds
    obtain ⟨hdc, hdr⟩ := dotOnly_uncons hdot
    unfold splitCbGo
    unfold cbStep
    rw [hds, if_pos hdc]
    unfold dateTailFree at htf
    rw [Bool.and_eq_true] at htf
    have := ih (acc ++ [c]) (by simp) htf.2 hdr (by
      have := htf.1
      rwa [Option.isNone_iff_eq_none] at this)
    rw [this]
    simp

theorem splitCb_noDate {text : Str} (hne : text ≠ []) (htf : dateTailFree text = true)
    (hdot : dotOnly text = true) :
    splitCb text = some (text, none) := by
  cases text with
  | nil => exact absurd rfl hne
  | cons c r =>
    obtain ⟨hdc, hdr⟩ := dotOnly_uncons hdot
    rw [show splitCb (c :: r) = (if jsDot c then splitCbGo [c] r else none) from rfl,
      if_pos hdc]
    unfold dateTailFree at htf
    rw [Bool.and_eq_true] at htf
    have := splitCbGo_noDate r [c] (by simp) htf.2 hdr (by
      have := htf.1
      rwa [Option.isNone_iff_eq_none] at this)
    rw [this]
    simp

theorem splitCbGo_date : ∀ (u acc d : Str), acc ≠ [] →
    noTrailWs u = true → dotOnly u = true → dateShape d = true →
    splitCbGo acc (u ++ ' ' :: '(' :: (d ++ [')'])) = some (acc ++ u, some d) := by
  intro u
  induction u with
  | nil =>
    intro acc d hacc _ _ hd
    simp only [List.nil_append]
    unfold splitCbGo
    unfold cbStep
    rw [dateSuffix_space_date hd]
    simp
  | cons c r ih =>
    intro acc d hacc hnt hdot hd
    obtain ⟨hdc, hdr⟩ := dotOnly_uncons hdot
    simp only [List.cons_append]
    unfold splitCbGo
    have hds : dateSuffix (c :: (r ++ ' ' :: '(' :: (d ++ [')']))) = none := by
      by_cases hws : jsWs c = true
      · apply dateSuffix_none_of_long
        rw [show c :: (r ++ ' ' :: '(' :: (d ++ [')'])) =
            (c :: r) ++ (' ' :: '(' :: (d ++ [')'])) from rfl]
        rw [dropWhile_append_of_ne_nil _
          (dropWhile_ne_nil_of_noTrailWs (by simp) hnt)]
        rcases dateShape_elim hd with ⟨c1, c2, c3, c4, c5, c6, c7, c8, c9, c10, rfl⟩
        have hnn : ((c :: r : Str)).dropWhile jsWs ≠ [] :=
          dropWhile_ne_nil_of_noTrailWs (by simp) hnt
        have h1 : 1 ≤ (List.dropWhile jsWs (c :: r)).length := by
          cases hq : List.dropWhile jsWs (c :: r) with
          | nil => exact absurd hq hnn
          | cons a b => simp
        simp only [List.length_append, List.length_cons, List.length_nil]
        omega
      · simp only [dateSuffix]
        rw [if_neg (by simp [hws])]
    unfold cbStep
    rw [hds, if_pos hdc]
    have := ih (acc ++ [c]) d (by simp) (noTrailWs_tail hnt) hdr hd
    rw [this]
    simp

theorem splitCb_date {text d : Str} (hne : text ≠ []) (hnt : noTrailWs text = true)
    (hdot : dotOnly text = true) (hd : dateShape d = true) :
    splitCb (text ++ ' ' :: '(' :: (d ++ [')'])) = some (text, some d) := by
  cases text with
  | nil => exact absurd rfl hne
  | cons c r =>
    obtain ⟨hdc, hdr⟩ := dotOnly_uncons hdot
    simp only [List.cons_append]
    rw [show splitCb (c :: (r ++ ' ' :: '(' :: (d ++ [')']))) =
        (if jsDot c then splitCbGo [c] (r ++ ' ' :: '(' :: (d ++ [')'])) else none)
        from rfl, if_pos hdc]
    have := splitCbGo_date r [c] d (by simp) (noTrailWs_tail hnt) hdr hd
    rw [this]
    simp

/-! ## Line-shape behavior of the parser step -/

theorem not_isPrefixOf_cons {p0 c : Char} {p' r : Str} (h : p0 ≠ c) :
    (p0 :: p').isPrefixOf (c :: r) = false := by
  simp [List.isPrefixOf, h]

theorem cons_ne_of_head {c d : Char} {r s : Str} (h : c ≠ d) : c :: r ≠ d :: s := by
  simp [h]

theorem dropWhile_eq_self_of_head {p : Char → Bool} {l : Str}
    (h : ∀ c, l.head? = some c → p c = false) : l.dropWhile p = l := by
  cases l with
  | nil => rfl
  | cons c r => simp [List.dropWhile_cons, h c rfl]

theorem dropWhile_replicate_sp {c : Char} {u : Str} (k : Nat) (hws : jsWs c = false) :
    (List.replicate k ' ' ++ c :: u).dropWhile jsWs = c :: u := by
  induction k with
  | zero => simp [List.dropWhile_cons, hws]
  | succ n ih =>
    rw [List.replicate_succ, List.cons_append, List.dropWhile_cons]
    simpa using ih

theorem takeWhile_replicate_sp {c : Char} {u : Str} (k : Nat) (hws : jsWs c = false) :
    (List.replicate k ' ' ++ c :: u).takeWhile jsWs = List.replicate k ' ' := by
  induction k with
  | zero => simp [List.takeWhile_cons, hws]
  | succ n ih =>
    rw [List.replicate_succ, List.cons_append, List.takeWhile_cons]
    simp only [show jsWs ' ' = true from rfl, if_true, List.replicate_succ]
    rw [ih]

theorem jsTrim_replicate {c : Char} {u : Str} (k : Nat) (hc : jsWs c = false)
    (hnt : noTrailWs (c :: u) = true) :
    jsTrim (List.replicate k ' ' ++ c :: u) = c :: u := by
  unfold jsTrim
  rw [dropWhile_replicate_sp k hc]
  rw [dropWhile_eq_self_of_head, List.reverse_reverse]
  intro d hd
  rw [List.head?_reverse] at hd
  unfold noTrailWs at hnt
  rw [hd] at hnt
  simpa using hnt

/-- The dispatch of the parser loop in the habits section for a non-heading
line. -/
theorem lineStep_habitMeta (gen : Nat → Str) {st : PSt} {h : Habit} {line : Str}
    (hsect : st.sect = some .habits) (hcur : st.curHabit = some h)
    (h1 : line ≠ "# Habits".data) (h2 : line ≠ "# Tasks".data) (h3 : line ≠ "---".data)
    (h4 : ("## ".data).isPrefixOf line = false) :
    lineStep gen st line = { st with curHabit := some (habitLineStep h line) } := by
  unfold lineStep
  rw [if_neg h1, if_neg h2, if_neg h3, if_pos hsect, if_neg (by simp [h4]), hcur]

/-- The heading branch of the habits section. -/
theorem lineStep_habitHeading (gen : Nat → Str) {st : PSt} (text : Str)
    (hsect : st.sect = some .habits) :
    lineStep gen st ("## ".data ++ text) =
      { st with habits := st.habits ++ (match st.curHabit with | some h => [h] | none => []),
                curHabit := some (freshHabit (gen st.nextId) text),
                nextId := st.nextId + 1 } := by
  unfold lineStep
  rw [if_neg (append_ne_const (by decide)), if_neg (append_ne_const (by decide)),
      if_neg (append_ne_const (by decide)), if_pos hsect,
      if_pos (isPrefixOf_append_self _ _), drop_append_len text 3 (by decide)]

theorem habitLineStep_interval (h : Habit) (v : Str) :
    habitLineStep h ("- Interval: ".data ++ v) =
      { h with repeatIntervalHours := jsParseIntOr v 24 } := by
  unfold habitLineStep
  rw [if_pos (isPrefixOf_append_self _ _), drop_append_len v 12 (by decide)]

theorem habitLineStep_total (h : Habit) (v : Str) :
    habitLineStep h ("- Total Completions: ".data ++ v) =
      { h with totalCompletions := jsParseIntOr v 0 } := by
  unfold habitLineStep
  rw [if_neg (by simp [not_isPrefixOf_append ("- Interval: ".data)
        ("- Total Completions: ".data) (by decide) (by decide)]),
      if_pos (isPrefixOf_append_self _ _), drop_append_len v 21 (by decide)]

theorem habitLineStep_last (h : Habit) (v : Str) :
    habitLineStep h ("- Last completed: ".data ++ v) =
      { h with lastCompleted := if v = "never".data then none else some v } := by
  unfold habitLineStep
  rw [if_neg (by simp [not_isPrefixOf_append ("- Interval: ".data)
        ("- Last completed: ".data) (by decide) (by decide)]),
      if_neg (by simp [not_isPrefixOf_append ("- Total Completions: ".data)
        ("- Last completed: ".data) (by decide) (by decide)]),
      if_neg (by simp [not_isPrefixOf_append ("- Streak: ".data)
        ("- Last completed: ".data) (by decide) (by decide)]),
      if_pos (isPrefixOf_append_self _ _), drop_append_len v 18 (by decide)]

theorem habitLineStep_note (h : Habit) {ca tx : Str} (hca : ca ≠ [])
    (hsep : sepFree ca = true) (hdca : dotOnly ca = true) (htx : tx ≠ [])
    (hdtx : dotOnly tx = true) :
    habitLineStep h ('|' :: ' ' :: '[' :: (ca ++ ']' :: ' ' :: tx)) =
      { h with notes := h.notes ++ [⟨ca, tx⟩] } := by
  unfold habitLineStep
  rw [if_neg (by simp [not_isPrefixOf_cons (show '-' ≠ '|' from by decide)]),
      if_neg (by simp [not_isPrefixOf_cons (show '-' ≠ '|' from by decide)]),
      if_neg (by simp [not_isPrefixOf_cons (show '-' ≠ '|' from by decide)]),
      if_neg (by simp [not_isPrefixOf_cons (show '-' ≠ '|' from by decide)]),
      if_neg (cons_ne_of_head (show '|' ≠ '-' from by decide)),
      if_neg (by simp [not_isPrefixOf_cons (show ' ' ≠ '|' from by decide)]),
      if_pos (show ("| ".data).isPrefixOf ('|' :: ' ' :: '[' :: (ca ++ ']' :: ' ' :: tx)) = true
        from isPrefixOf_append_self ("| ".data) ('[' :: (ca ++ ']' :: ' ' :: tx)))]
  have hdrop : List.drop 2 ('|' :: ' ' :: '[' :: (ca ++ ']' :: ' ' :: tx)) =
      '[' :: (ca ++ ']' :: ' ' :: tx) := rfl
  rw [hdrop, noteSplit_spec hca hsep hdca htx hdtx]

theorem lineStep_interval (gen : Nat → Str) (H : List Habit) (T : List Task)
    (h : Habit) (S : List PTask) (k : Nat) (v : Str) :
    lineStep gen ⟨H, T, some .habits, some h, S, k⟩ ("- Interval: ".data ++ v) =
      ⟨H, T, some .habits, some { h with repeatIntervalHours := jsParseIntOr v 24 }, S, k⟩ := by
  rw [lineStep_habitMeta gen rfl rfl (append_ne_const (by decide))
    (append_ne_const (by decide)) (append_ne_const (by decide))
    (not_isPrefixOf_append _ _ (by decide) (by decide)),
    habitLineStep_interval]

theorem lineStep_total (gen : Nat → Str) (H : List Habit) (T : List Task)
    (h : Habit) (S : List PTask) (k : Nat) (v : Str) :
    lineStep gen ⟨H, T, some .habits, some h, S, k⟩ ("- Total Completions: ".data ++ v) =
      ⟨H, T, some .habits, some { h with totalCompletions := jsParseIntOr v 0 }, S, k⟩ := by
  rw [lineStep_habitMeta gen rfl rfl (append_ne_const (by decide))
    (append_ne_const (by decide)) (append_ne_const (by decide))
    (not_isPrefixOf_append _ _ (by decide) (by decide)),
    habitLineStep_total]

theorem lineStep_last (gen : Nat → Str) (H : List Habit) (T : List Task)
    (h : Habit) (S : List PTask) (k : Nat) (v : Str) :
    lineStep gen ⟨H, T, some .habits, some h, S, k⟩ ("- Last completed: ".data ++ v) =
      ⟨H, T, some .habits,
        some { h with lastCompleted := if v = "never".data then none else some v }, S, k⟩ := by
  rw [lineStep_habitMeta gen rfl rfl (append_ne_const (by decide))
    (append_ne_const (by decide)) (append_ne_const (by decide))
    (not_isPrefixOf_append _ _ (by decide) (by decide)),
    habitLineStep_last]

theorem lineStep_habitNote (gen : Nat → Str) (H : List Habit) (T : List Task)
    (h : Habit) (S : List PTask) (k : Nat) {ca tx : Str}
    (hca : ca ≠ []) (hsep : sepFree ca = true) (hdca : dotOnly ca = true)
    (htx : tx ≠ []) (hdtx : dotOnly tx = true) :
    lineStep gen ⟨H, T, some .habits, some h, S, k⟩
        ('|' :: ' ' :: '[' :: (ca ++ ']' :: ' ' :: tx)) =
      ⟨H, T, some .habits, some { h with notes := h.notes ++ [⟨ca, tx⟩] }, S, k⟩ := by
  rw [lineStep_habitMeta gen rfl rfl (cons_ne_of_head (by decide))
    (cons_ne_of_head (by decide)) (cons_ne_of_head (by decide))
    (not_isPrefixOf_cons (by decide)),
    habitLineStep_note h hca hsep hdca htx hdtx]

/-- The parser ignores an empty line in any state. -/
theorem lineStep_empty (gen : Nat → Str) (st : PSt) : lineStep gen st [] = st := by
  unfold lineStep
  rw [if_neg (by decide), if_neg (by decide), if_neg (by decide)]
  by_cases h1 : st.sect = some .habits
  · rw [if_pos h1, if_neg (by decide)]
    cases hc : st.curHabit with
    | none => rfl
    | some h =>
      change { st with curHabit := some (habitLineStep h []) } = st
      rw [show habitLineStep h [] = h from rfl, ← hc]
  · rw [if_neg h1]
    by_cases h2 : st.sect = some .tasks
    · rw [if_pos h2, if_neg (by decide)]
      by_cases h3 : st.stack.isEmpty = true
      · rw [if_pos h3]
      · rw [if_neg h3]
        rfl
    · rw [if_neg h2]

/-- The parser ignores the separator line in any state. -/
theorem lineStep_sep (gen : Nat → Str) (st : PSt) : lineStep gen st ("---".data) = st := by
  unfold lineStep
  rw [if_neg (by decide), if_neg (by decide), if_pos rfl]

/-- The habits heading line switches the section. -/
theorem lineStep_habitsHdr (gen : Nat → Str) (st : PSt) :
    lineStep gen st ("# Habits".data) = { st with sect := some .habits } := by
  unfold lineStep
  rw [if_pos rfl]

/-- The tasks heading line flushes the pending habit and switches the
section. -/
theorem lineStep_tasksHdr (gen : Nat → Str) (st : PSt) :
    lineStep gen st ("# Tasks".data) =
      { st with habits := st.habits ++ (match st.curHabit with | some h => [h] | none => []),
                curHabit := none, sect := some .tasks } := by
  unfold lineStep
  rw [if_neg (by decide), if_pos rfl]
  cases hc : st.curHabit with
  | none => simp
  | some h => simp

/-! ## The serialized document as a list of lines -/

/-- Concatenate newline-terminated lines in front of a remainder. -/
def linesJoin : List Str → Str → Str
  | [], rest => rest
  | l :: ls, rest => l ++ '\n' :: linesJoin ls rest

theorem linesJoin_append (xs ys : List Str) (rest : Str) :
    linesJoin (xs ++ ys) rest = linesJoin xs (linesJoin ys rest) := by
  induction xs with
  | nil => rfl
  | cons l ls ih => simp [linesJoin, ih]

theorem splitNl_linesJoin {lines : List Str} (rest : Str)
    (h : ∀ l ∈ lines, noNl l = true) :
    splitNl (linesJoin lines rest) = lines ++ splitNl rest := by
  induction lines with
  | nil => rfl
  | cons l ls ih =>
    unfold linesJoin
    rw [splitNl_cons l _ (h l (by simp)), ih (fun x hx => h x (by simp [hx]))]
    rfl

/-- The lines of one serialized habit block. -/
def habitLines (h : Habit) : List Str :=
  ("## ".data ++ h.text) ::
  ("- Interval: ".data ++ intToStr h.repeatIntervalHours ++ ['h']) ::
  ("- Total Completions: ".data ++ intToStr h.totalCompletions) ::
  ("- Last completed: ".data ++ lastCompletedStr h.lastCompleted) ::
  (h.notes.map noteLine ++ [[]])

theorem notesBlock_linesJoin : ∀ (ns : List Note) (r : Str),
    notesBlock [] ns ++ r = linesJoin (ns.map noteLine) r := by
  intro ns
  induction ns with
  | nil => intro r; rfl
  | cons n ns ih =>
    intro r
    simp only [notesBlock, List.map_cons, linesJoin, List.nil_append, List.append_assoc,
      List.cons_append]
    rw [ih]

theorem serializeHabit_linesJoin (h : Habit) (rest : Str) :
    serializeHabit h ++ rest = linesJoin (habitLines h) rest := by
  unfold serializeHabit habitLines
  simp only [linesJoin]
  rw [linesJoin_append, ← notesBlock_linesJoin]
  simp only [linesJoin, List.append_assoc, List.cons_append, List.singleton_append,
    List.nil_append]

theorem habitsBlock_linesJoin (hs : List Habit) (rest : Str) :
    habitsBlock hs ++ rest = linesJoin (hs.flatMap habitLines) rest := by
  induction hs with
  | nil => rfl
  | cons h hs ih =>
    unfold habitsBlock
    rw [List.flatMap_cons, linesJoin_append, List.append_assoc, ih,
      serializeHabit_linesJoin]

/-! ## Folding the parser over a serialized habits section -/

/-- What the parser reconstructs from one serialized habit: everything but
the id, which is freshly generated. -/
def parsedHabit (gen : Nat → Str) (k : Nat) (h : Habit) : Habit :=
  ⟨gen k, h.text, h.repeatIntervalHours, h.totalCompletions, h.lastCompleted, h.notes⟩

/-- The habits parsed from a serialized list, with ids drawn in order from
the supply. -/
def parsedHabits (gen : Nat → Str) (k : Nat) : List Habit → List Habit
  | [] => []
  | h :: hs => parsedHabit gen k h :: parsedHabits gen (k + 1) hs

theorem wfNote_parts {n : Note} (h : wfNote n = true) :
    n.createdAt ≠ [] ∧ sepFree n.createdAt = true ∧ n.text ≠ [] ∧
    noNl n.createdAt = true ∧ noNl n.text = true ∧ noTrailWs n.text = true ∧
    dotOnly n.createdAt = true ∧ dotOnly n.text = true := by
  unfold wfNote at h
  simp only [Bool.and_eq_true] at h
  obtain ⟨⟨⟨⟨⟨⟨⟨h1, h2⟩, h3⟩, h4⟩, h5⟩, h6⟩, h7⟩, h8⟩ := h
  refine ⟨?_, h3, ?_, h2, h5, h6, h7, h8⟩
  · simpa using h1
  · simpa using h4

theorem wfHabit_parts {h : Habit} (hw : wfHabit h = true) :
    noNl h.text = true ∧ 0 < h.repeatIntervalHours ∧ 0 ≤ h.totalCompletions ∧
    (∀ s, h.lastCompleted = some s → s ≠ [] ∧ s ≠ "never".data ∧ noNl s = true) ∧
    h.notes.all wfNote = true := by
  unfold wfHabit at hw
  simp only [Bool.and_eq_true] at hw
  obtain ⟨⟨⟨⟨⟨⟨h1, h2⟩, h3⟩, h2b⟩, h3b⟩, h4⟩, h5⟩ := hw
  refine ⟨h1, by simpa using h2, by simpa using h3, ?_, h5⟩
  intro s hs
  rw [hs] at h4
  simp only [Bool.and_eq_true] at h4
  obtain ⟨⟨h6, h7⟩, h8⟩ := h4
  refine ⟨by simpa using h6, by simpa using h7, h8⟩

theorem noteLine_cons (n : Note) :
    noteLine n = '|' :: ' ' :: '[' :: (n.createdAt ++ ']' :: ' ' :: n.text) := by
  unfold noteLine
  simp [List.append_assoc]

theorem foldl_habit_notes (gen : Nat → Str) :
    ∀ (notes : List Note) (H : List Habit) (T : List Task) (h : Habit)
      (S : List PTask) (k : Nat),
    notes.all wfNote = true →
    (notes.map noteLine).foldl (lineStep gen) ⟨H, T, some .habits, some h, S, k⟩ =
      ⟨H, T, some .habits, some { h with notes := h.notes ++ notes }, S, k⟩ := by
  intro notes
  induction notes with
  | nil =>
    intro H T h S k _
    simp only [List.map_nil, List.foldl_nil]
    rw [show ({ h with notes := h.notes ++ [] } : Habit) = h from by simp]
  | cons n ns ih =>
    intro H T h S k hw
    simp only [List.all_cons, Bool.and_eq_true] at hw
    obtain ⟨hca, hsep, htx, -, -, -, hdca, hdtx⟩ := wfNote_parts hw.1
    simp only [List.map_cons, List.foldl_cons]
    rw [noteLine_cons n, lineStep_habitNote gen H T h S k hca hsep hdca htx hdtx]
    rw [ih H T ({ h with notes := h.notes ++ [n] }) S k hw.2]
    simp [List.append_assoc]

/-- Folding the parser over one serialized habit block: the pending habit
is flushed, and the block is read back as the same habit with a fresh id. -/
theorem foldl_habitLines (gen : Nat → Str) (st : PSt) (h : Habit)
    (hw : wfHabit h = true) (hsect : st.sect = some .habits) :
    (habitLines h).foldl (lineStep gen) st =
      { st with habits := st.habits ++ (match st.curHabit with | some h0 => [h0] | none => []),
                curHabit := some (parsedHabit gen st.nextId h),
                nextId := st.nextId + 1 } := by
  obtain ⟨htext, hpos, hnn, hlast, hnotes⟩ := wfHabit_parts hw
  unfold habitLines
  rw [List.foldl_cons, lineStep_habitHeading gen h.text hsect, hsect]
  rw [show "- Interval: ".data ++ intToStr h.repeatIntervalHours ++ ['h'] =
      "- Interval: ".data ++ (intToStr h.repeatIntervalHours ++ ['h']) from
    List.append_assoc _ _ _]
  rw [List.foldl_cons, lineStep_interval gen, jsParseIntOr_interval hpos]
  rw [List.foldl_cons, lineStep_total gen, jsParseIntOr_completions hnn]
  rw [List.foldl_cons, lineStep_last gen]
  have hlc : (if lastCompletedStr h.lastCompleted = "never".data then none
      else some (lastCompletedStr h.lastCompleted)) = h.lastCompleted := by
    cases hl : h.lastCompleted with
    | none => simp [lastCompletedStr]
    | some s =>
      obtain ⟨hs1, hs2, -⟩ := hlast s hl
      have hv : lastCompletedStr (some s) = s := by
        show (if List.isEmpty s = true then "never".data else s) = s
        rw [if_neg]
        simpa using hs1
      rw [hv, if_neg hs2]
  rw [hlc]
  rw [List.foldl_append, foldl_habit_notes gen h.notes _ _ _ _ _ hnotes]
  rw [List.foldl_cons, lineStep_empty, List.foldl_nil]
  simp [freshHabit, parsedHabit]

/-- Folding the parser over the whole serialized habits section and the
trailer that separates it from the tasks section. -/
theorem foldl_habitsSection (gen : Nat → Str) : ∀ (hs : List Habit) (st : PSt),
    hs.all wfHabit = true → st.sect = some .habits →
    ((hs.flatMap habitLines) ++ ["---".data, [], "# Tasks".data, []]).foldl (lineStep gen) st =
      { st with sect := some .tasks,
                curHabit := none,
                habits := st.habits ++
                  (match st.curHabit with | some h0 => [h0] | none => []) ++
                  parsedHabits gen st.nextId hs,
                nextId := st.nextId + hs.length } := by
  intro hs
  induction hs with
  | nil =>
    intro st _ hsect
    rw [List.flatMap_nil, List.nil_append, List.foldl_cons, List.foldl_cons,
      List.foldl_cons, List.foldl_cons, List.foldl_nil]
    rw [lineStep_sep, lineStep_empty, lineStep_tasksHdr, lineStep_empty]
    simp [parsedHabits]
  | cons h hs ih =>
    intro st hw hsect
    simp only [List.all_cons, Bool.and_eq_true] at hw
    rw [List.flatMap_cons, List.append_assoc, List.foldl_append]
    rw [foldl_habitLines gen st h hw.1 hsect]
    rw [ih ({ st with
        habits := st.habits ++ (match st.curHabit with | some h0 => [h0] | none => []),
        curHabit := some (parsedHabit gen st.nextId h),
        nextId := st.nextId + 1 }) hw.2 hsect]
    simp [parsedHabits, List.append_assoc]
    omega

/-! ## Folding the parser over a serialized tasks section -/

mutual

/-- Number of nodes of a task tree. -/
def sizeT : Task → Nat
  | .mk _ _ _ _ _ ch => 1 + sizeTs ch

def sizeTs : List Task → Nat
  | [] => 0
  | t :: ts => sizeT t + sizeTs ts

end

mutual

/-- The task tree with every id reassigned from the supply in preorder:
what the parser reconstructs from a serialized tree. -/
def reTask (gen : Nat → Str) (k : Nat) : Task → Task
  | .mk _ x c ca n ch => .mk (gen k) x c ca n (reTasks gen (k + 1) ch)

def reTasks (gen : Nat → Str) (k : Nat) : List Task → List Task
  | [] => []
  | t :: ts => reTask gen k t :: reTasks gen (k + sizeT t) ts

end

/-- The date suffix of a checkbox line. -/
def dateSfx : Option Str → Str
  | some d => ' ' :: '(' :: (d ++ [')'])
  | none => []

mutual

/-- The lines of one subtask block at the given depth. -/
def taskLines (d : Nat) : Task → List Str
  | .mk _ x c ca n ch =>
    (List.replicate (2 * d) ' ' ++ '-' :: ' ' :: '[' :: (if c then 'x' else ' ') :: ']' :: ' ' ::
      (x ++ dateSfx ca)) ::
    (n.map (fun nt => List.replicate (2 * d + 2) ' ' ++ noteLine nt) ++ taskListLines (d + 1) ch)

def taskListLines (d : Nat) : List Task → List Str
  | [] => []
  | t :: ts => taskLines d t ++ taskListLines d ts

end

/-- The lines of one serialized top-level task block. -/
def topTaskLines (t : Task) : List Str :=
  ("## ".data ++ t.text) ::
  ((if t.completed then ["- Status: completed".data ++ completedDateStr t.completedAt] else []) ++
   (t.notes.map noteLine ++ (taskListLines 0 t.children ++ [[]])))

theorem completedDateStr_dateSfx (ca : Option Str) : completedDateStr ca = dateSfx ca := by
  cases ca with
  | none => rfl
  | some d => simp [completedDateStr, dateSfx]

theorem subNotesBlock_linesJoin (d : Nat) : ∀ (ns : List Note) (r : Str),
    notesBlock (List.replicate (2 * d) ' ' ++ "  ".data) ns ++ r =
      linesJoin (ns.map (fun nt => List.replicate (2 * d + 2) ' ' ++ noteLine nt)) r := by
  intro ns
  induction ns with
  | nil => intro r; rfl
  | cons nt ns ihn =>
    intro r
    simp only [notesBlock, List.map_cons, linesJoin, List.append_assoc, List.cons_append]
    rw [ihn]
    rw [show List.replicate (2 * d + 2) ' ' = List.replicate (2 * d) ' ' ++ [' ', ' '] from by
      rw [List.replicate_add]
      rfl]
    simp [List.append_assoc]

theorem serializeTask_linesJoin : ∀ (t : Task) (d : Nat) (rest : Str),
    serializeTask t d ++ rest = linesJoin (taskLines d t) rest :=
  task_induct _
    (fun ts => ∀ d rest, serializeTaskList ts d ++ rest = linesJoin (taskListLines d ts) rest)
    (fun i x c ca n ch ihch => by
      intro d rest
      unfold serializeTask taskLines
      simp only [linesJoin]
      rw [linesJoin_append, ← subNotesBlock_linesJoin, ← ihch (d + 1)]
      rw [completedDateStr_dateSfx]
      cases c <;> simp [List.append_assoc])
    (fun d rest => rfl)
    (fun t ts iht ihts => by
      intro d rest
      unfold serializeTaskList taskListLines
      rw [linesJoin_append, ← iht, ← ihts]
      simp [List.append_assoc])

theorem taskLines_list_join : ∀ (ts : List Task) (d : Nat) (rest : Str),
    serializeTaskList ts d ++ rest = linesJoin (taskListLines d ts) rest := by
  intro ts
  induction ts with
  | nil => intro d rest; rfl
  | cons t ts ih =>
    intro d rest
    unfold serializeTaskList taskListLines
    rw [linesJoin_append, ← serializeTask_linesJoin, ← ih]
    simp [List.append_assoc]

theorem serializeTopTask_linesJoin (t : Task) (rest : Str) :
    serializeTopTask t ++ rest = linesJoin (topTaskLines t) rest := by
  cases t with
  | mk i x c ca n ch =>
    unfold serializeTopTask topTaskLines
    simp only [linesJoin, Task.text, Task.completed, Task.completedAt, Task.notes, Task.children]
    rw [linesJoin_append, linesJoin_append, linesJoin_append,
      ← notesBlock_linesJoin, ← taskLines_list_join]
    rw [completedDateStr_dateSfx]
    cases c <;> simp [linesJoin, List.append_assoc]

theorem topTasksBlock_linesJoin (ts : List Task) (rest : Str) :
    topTasksBlock ts ++ rest = linesJoin (ts.flatMap topTaskLines) rest := by
  induction ts with
  | nil => rfl
  | cons t ts ih =>
    unfold topTasksBlock
    rw [List.flatMap_cons, linesJoin_append, List.append_assoc, ih,
      serializeTopTask_linesJoin]

theorem isEmpty_false_of_ne_nil {S : List PTask} (h : S ≠ []) : S.isEmpty = false := by
  cases S with
  | nil => exact absurd rfl h
  | cons a b => rfl

theorem cons2_ne {c1 c2 d1 d2 : Char} {r s : Str} (h : c2 ≠ d2) :
    c1 :: c2 :: r ≠ d1 :: d2 :: s := by
  simp [h]

/-- A prefix test against an indented line fails when it fails against the
line body and the tested prefix does not begin with a space. -/
theorem cond_false_rep {p b : Str} (n : Nat)
    (h0 : p.isPrefixOf b = false) (h1 : p.head? ≠ some ' ') :
    p.isPrefixOf (List.replicate n ' ' ++ b) = false := by
  cases n with
  | zero => simpa using h0
  | succ m =>
    rw [List.replicate_succ, List.cons_append]
    cases p with
    | nil => exact absurd h0 (by simp [List.isPrefixOf])
    | cons p0 ps =>
      apply not_isPrefixOf_cons
      intro he
      exact h1 (by rw [he]; rfl)

/-- An equality test against an indented line fails when the constant does
not begin with a space and differs from the bare body. -/
theorem eq_const_false_rep {b cst : Str} (n : Nat)
    (h0 : b ≠ cst) (h1 : cst.head? ≠ some ' ') :
    (List.replicate n ' ' ++ b) ≠ cst := by
  cases n with
  | zero => simpa using h0
  | succ m =>
    rw [List.replicate_succ, List.cons_append]
    cases cst with
    | nil => simp
    | cons c0 cs =>
      apply cons_ne_of_head
      intro he
      exact h1 (by rw [he]; rfl)

/-- The dispatch of the parser loop in the tasks section for a non-heading
line with a current task. -/
theorem lineStep_taskOther (gen : Nat → Str) {st : PSt} {line : Str}
    (hsect : st.sect = some .tasks) (hS : st.stack ≠ [])
    (h1 : line ≠ "# Habits".data) (h2 : line ≠ "# Tasks".data) (h3 : line ≠ "---".data)
    (h4 : ("## ".data).isPrefixOf line = false) :
    lineStep gen st line = taskLineStep gen st line := by
  unfold lineStep
  rw [if_neg h1, if_neg h2, if_neg h3, if_neg (by rw [hsect]; simp), if_pos hsect,
    if_neg (by simp [h4]), if_neg (by simp [isEmpty_false_of_ne_nil hS])]

theorem findDateParen_status (ca : Option Str)
    (h : ∀ d, ca = some d → dateShape d = true) :
    findDateParen ("- Status: completed".data ++ dateSfx ca) = ca := by
  cases ca with
  | none =>
    rw [show dateSfx none = [] from rfl, List.append_nil]
    decide
  | some d =>
    have hd := h d rfl
    rw [show ("- Status: completed".data ++ dateSfx (some d) : Str) =
        "- Status: completed ".data ++ ('(' :: (d ++ [')'])) from by
      rw [show dateSfx (some d) = ' ' :: '(' :: (d ++ [')']) from rfl, List.append_cons]
      rfl]
    rw [findDateParen_pre (by decide), findDateParen_at hd]

/-- The status line of a top-level task marks the root completed and takes
the parenthesized date when present. -/
theorem lineStep_status (gen : Nat → Str) (H : List Habit) (Tk : List Task)
    (ch : Option Habit) (S : List PTask) (k : Nat) (ca : Option Str)
    (hS : S ≠ []) (hca : ∀ d, ca = some d → dateShape d = true) :
    lineStep gen ⟨H, Tk, some .tasks, ch, S, k⟩
        ("- Status: completed".data ++ dateSfx ca) =
      ⟨H, Tk, some .tasks, ch, modifyBottom (statusUpdate ca) S, k⟩ := by
  rw [lineStep_taskOther gen rfl hS (append_ne_const (by decide))
    (append_ne_const (by decide)) (append_ne_const (by decide))
    (not_isPrefixOf_append _ _ (by decide) (by decide))]
  unfold taskLineStep
  rw [if_pos (isPrefixOf_append_self _ _), findDateParen_status ca hca]

/-- A top-level note line (unindented pipe) with a singleton stack attaches
the note to the current task. -/
theorem lineStep_topNote (gen : Nat → Str) (H : List Habit) (Tk : List Task)
    (ch : Option Habit) (p : PTask) (k : Nat) {ca tx : Str}
    (hca : ca ≠ []) (hsep : sepFree ca = true) (hdca : dotOnly ca = true)
    (htx : tx ≠ []) (hdtx : dotOnly tx = true) :
    lineStep gen ⟨H, Tk, some .tasks, ch, [p], k⟩
        ('|' :: ' ' :: '[' :: (ca ++ ']' :: ' ' :: tx)) =
      ⟨H, Tk, some .tasks, ch, [addNote ⟨ca, tx⟩ p], k⟩ := by
  rw [lineStep_taskOther gen rfl (by simp) (cons_ne_of_head (by decide))
    (cons_ne_of_head (by decide)) (cons_ne_of_head (by decide))
    (not_isPrefixOf_cons (by decide))]
  unfold taskLineStep
  rw [if_neg (by simp [not_isPrefixOf_cons (show '-' ≠ '|' from by decide)]),
    if_neg (by simp [not_isPrefixOf_cons (show '>' ≠ '|' from by decide)]),
    if_pos (by
      rw [show ("| ".data).isPrefixOf ('|' :: ' ' :: '[' :: (ca ++ ']' :: ' ' :: tx)) = true
        from isPrefixOf_append_self ("| ".data) ('[' :: (ca ++ ']' :: ' ' :: tx))]
      rfl)]
  have hdrop : List.drop 2 ('|' :: ' ' :: '[' :: (ca ++ ']' :: ' ' :: tx)) =
      '[' :: (ca ++ ']' :: ' ' :: tx) := rfl
  rw [hdrop, noteSplit_spec hca hsep hdca htx hdtx]
  rfl

/-- A checkbox line creates a fresh task frame on the stack popped to the
depth the indentation selects. -/
theorem lineStep_checkbox (gen : Nat → Str) (H : List Habit) (Tk : List Task)
    (ch : Option Habit) (S : List PTask) (k d : Nat) (m : Char) (text : Str) (ca : Option Str)
    (hS : S ≠ []) (hm : m = 'x' ∨ m = ' ')
    (hsplit : splitCb (text ++ dateSfx ca) = some (text, ca)) :
    lineStep gen ⟨H, Tk, some .tasks, ch, S, k⟩
        (List.replicate (2 * d) ' ' ++ '-' :: ' ' :: '[' :: m :: ']' :: ' ' ::
          (text ++ dateSfx ca)) =
      ⟨H, Tk, some .tasks, ch,
        freshPTask (gen k) text (m = 'x') ca :: popToDepth (2 * d) S, k + 1⟩ := by
  have hmne : m ≠ ' ' → m = 'x' := by
    intro hne
    rcases hm with h | h
    · exact h
    · exact absurd h hne
  rw [lineStep_taskOther gen rfl hS
    (eq_const_false_rep _ (cons_ne_of_head (by decide)) (by decide))
    (eq_const_false_rep _ (cons_ne_of_head (by decide)) (by decide))
    (eq_const_false_rep _ (cons2_ne (by decide)) (by decide))
    (cond_false_rep _ (not_isPrefixOf_cons (by decide)) (by decide))]
  unfold taskLineStep
  have hdrop : (List.replicate (2 * d) ' ' ++ '-' :: ' ' :: '[' :: m :: ']' :: ' ' ::
      (text ++ dateSfx ca)).dropWhile jsWs =
      '-' :: ' ' :: '[' :: m :: ']' :: ' ' :: (text ++ dateSfx ca) :=
    dropWhile_replicate_sp _ (by decide)
  have htake : (List.replicate (2 * d) ' ' ++ '-' :: ' ' :: '[' :: m :: ']' :: ' ' ::
      (text ++ dateSfx ca)).takeWhile jsWs = List.replicate (2 * d) ' ' :=
    takeWhile_replicate_sp _ (by decide)
  rw [if_neg (by simp [cond_false_rep _ (show ("- Status: completed".data).isPrefixOf
      ('-' :: ' ' :: '[' :: m :: ']' :: ' ' :: (text ++ dateSfx ca)) = false from
      show ("- Status: completed".data).isPrefixOf
        (['-', ' ', '['] ++ (m :: ']' :: ' ' :: (text ++ dateSfx ca))) = false from
      not_isPrefixOf_append _ _ (by decide) (by decide)) (by decide)]),
    if_neg (by simp [cond_false_rep _ (not_isPrefixOf_cons (show '>' ≠ '-' from by decide))
      (show ("> ".data).head? ≠ some ' ' from by decide)]),
    if_neg (by simp [cond_false_rep _ (not_isPrefixOf_cons (show '|' ≠ '-' from by decide))
      (show ("| ".data).head? ≠ some ' ' from by decide)]),
    if_pos (by
      unfold checkboxGuard
      rw [hdrop]
      rcases hm with h | h <;> rw [h] <;> rfl)]
  rw [show checkboxFull (List.replicate (2 * d) ' ' ++ '-' :: ' ' :: '[' :: m :: ']' :: ' ' ::
      (text ++ dateSfx ca)) =
      cbMk (List.replicate (2 * d) ' ' ++ '-' :: ' ' :: '[' :: m :: ']' :: ' ' ::
        (text ++ dateSfx ca)) m (text ++ dateSfx ca) from by
    unfold checkboxFull
    rw [hdrop]
    rfl]
  unfold cbMk
  rw [if_pos (by rcases hm with h | h <;> simp [h]), hsplit, htake]
  simp [List.length_replicate]

theorem isPrefixOf_rep_succ_false {c : Char} (p b : Str) (n : Nat) (h : c ≠ ' ') :
    (c :: p).isPrefixOf (List.replicate (n + 1) ' ' ++ b) = false := by
  rw [List.replicate_succ, List.cons_append]
  exact not_isPrefixOf_cons h

theorem noTrailWs_append (u : Str) {tx : Str} (h : tx ≠ []) :
    noTrailWs (u ++ tx) = noTrailWs tx := by
  unfold noTrailWs
  rw [List.getLast?_append_of_ne_nil _ h]

/-- An indented note line attaches the note to the task at the top of the
ancestor stack. -/
theorem lineStep_subNote (gen : Nat → Str) (H : List Habit) (Tk : List Task)
    (ch : Option Habit) (S : List PTask) (k d : Nat) {ca tx : Str}
    (hS : S ≠ []) (hca : ca ≠ []) (hsep : sepFree ca = true)
    (hdca : dotOnly ca = true) (htx : tx ≠ []) (hdtx : dotOnly tx = true)
    (hnt : noTrailWs tx = true) :
    lineStep gen ⟨H, Tk, some .tasks, ch, S, k⟩
        (List.replicate (2 * d + 2) ' ' ++ '|' :: ' ' :: '[' :: (ca ++ ']' :: ' ' :: tx)) =
      ⟨H, Tk, some .tasks, ch, modifyTop (addNote ⟨ca, tx⟩) S, k⟩ := by
  have hbody : ('|' :: ' ' :: '[' :: (ca ++ ']' :: ' ' :: tx) : Str) =
      ('|' :: ' ' :: '[' :: (ca ++ [']', ' '])) ++ tx := by
    simp
  have hnt2 : noTrailWs ('|' :: ' ' :: '[' :: (ca ++ ']' :: ' ' :: tx)) = true := by
    rw [hbody, noTrailWs_append _ htx]
    exact hnt
  rw [lineStep_taskOther gen rfl hS
    (eq_const_false_rep _ (cons_ne_of_head (by decide)) (by decide))
    (eq_const_false_rep _ (cons_ne_of_head (by decide)) (by decide))
    (eq_const_false_rep _ (cons_ne_of_head (by decide)) (by decide))
    (cond_false_rep _ (not_isPrefixOf_cons (by decide)) (by decide))]
  unfold taskLineStep
  have hdropw : (List.replicate (2 * d + 2) ' ' ++
      '|' :: ' ' :: '[' :: (ca ++ ']' :: ' ' :: tx)).dropWhile jsWs =
      '|' :: ' ' :: '[' :: (ca ++ ']' :: ' ' :: tx) :=
    dropWhile_replicate_sp _ (by decide)
  rw [if_neg (by simp [cond_false_rep _ (show ("- Status: completed".data).isPrefixOf
      ('|' :: ' ' :: '[' :: (ca ++ ']' :: ' ' :: tx)) = false from
      not_isPrefixOf_cons (by decide))
      (show ("- Status: completed".data).head? ≠ some ' ' from by decide)]),
    if_neg (by simp [cond_false_rep _ (show ("> ".data).isPrefixOf
      ('|' :: ' ' :: '[' :: (ca ++ ']' :: ' ' :: tx)) = false from
      not_isPrefixOf_cons (by decide))
      (show ("> ".data).head? ≠ some ' ' from by decide)]),
    if_neg (by simp [show ("| ".data).isPrefixOf (List.replicate (2 * d + 2) ' ' ++
      '|' :: ' ' :: '[' :: (ca ++ ']' :: ' ' :: tx)) = false from
      isPrefixOf_rep_succ_false _ _ (2 * d + 1) (by decide)]),
    if_neg (by
      unfold checkboxGuard
      rw [hdropw]
      exact fun h => Bool.noConfusion h),
    if_neg (by
      rw [hdropw]
      simp [not_isPrefixOf_cons (show ('>' : Char) ≠ '|' from by decide)]),
    if_pos (by
      rw [hdropw]
      rw [show ("| ".data).isPrefixOf ('|' :: ' ' :: '[' :: (ca ++ ']' :: ' ' :: tx)) = true
        from isPrefixOf_append_self ("| ".data) ('[' :: (ca ++ ']' :: ' ' :: tx))])]
  rw [jsTrim_replicate (2 * d + 2) (by decide) hnt2]
  have hdrop2 : List.drop 2 ('|' :: ' ' :: '[' :: (ca ++ ']' :: ' ' :: tx)) =
      '[' :: (ca ++ ']' :: ' ' :: tx) := rfl
  rw [hdrop2, noteSplit_spec hca hsep hdca htx hdtx]
  cases S with
  | nil => exact absurd rfl hS
  | cons p R => simp

/-- The heading branch of the tasks section: the pending task tree is
flushed and a fresh root frame starts the new tree. -/
theorem lineStep_taskHeading (gen : Nat → Str) {st : PSt} (text : Str)
    (hsect : st.sect = some .tasks) :
    lineStep gen st ("## ".data ++ text) =
      { st with
          tasks := st.tasks ++ (match collapseAll st.stack with | some t => [t] | none => []),
          stack := [freshPTask (gen st.nextId) text false none],
          nextId := st.nextId + 1 } := by
  unfold lineStep
  rw [if_neg (append_ne_const (by decide)), if_neg (append_ne_const (by decide)),
      if_neg (append_ne_const (by decide)), if_neg (by rw [hsect]; simp), if_pos hsect,
      if_pos (isPrefixOf_append_self _ _), drop_append_len text 3 (by decide)]

/-! ## Stack discipline of popToDepth -/

theorem popToDepth_nil (ind : Nat) : popToDepth ind [] = [] := by
  simp only [popToDepth]

theorem popToDepth_one (ind : Nat) (p : PTask) : popToDepth ind [p] = [p] := by
  simp only [popToDepth]

theorem popToDepth_cons2 (ind : Nat) (p q : PTask) (rest : List PTask) :
    popToDepth ind (p :: q :: rest) =
      if 2 * ((p :: q :: rest).length - 1) > ind then
        popToDepth ind (collapseOnce (p :: q :: rest))
      else p :: q :: rest := by
  simp only [popToDepth]

theorem popToDepth_eq_self {ind : Nat} : ∀ {S : List PTask},
    2 * (S.length - 1) ≤ ind → popToDepth ind S = S
  | [], _ => popToDepth_nil ind
  | [p], _ => popToDepth_one ind p
  | p :: q :: rest, h => by
    rw [popToDepth_cons2, if_neg (by omega)]

theorem popToDepth_ne_nil {ind : Nat} : ∀ {S : List PTask}, S ≠ [] → popToDepth ind S ≠ []
  | [], h => absurd rfl h
  | [p], _ => by
    rw [popToDepth_one]
    simp
  | p :: q :: rest, _ => by
    rw [popToDepth_cons2]
    by_cases hc : 2 * ((p :: q :: rest).length - 1) > ind
    · rw [if_pos hc]
      exact popToDepth_ne_nil (by simp [collapseOnce])
    · rw [if_neg hc]
      simp
termination_by S => S.length
decreasing_by simp [collapseOnce]

theorem popToDepth_popToDepth {m n : Nat} (hmn : m ≤ n) : ∀ (S : List PTask),
    popToDepth m (popToDepth n S) = popToDepth m S
  | [] => by rw [popToDepth_nil, popToDepth_nil]
  | [p] => by rw [popToDepth_one]
  | p :: q :: rest => by
    by_cases hc : 2 * ((p :: q :: rest).length - 1) > n
    · rw [show popToDepth n (p :: q :: rest) =
          popToDepth n (collapseOnce (p :: q :: rest)) from by
        rw [popToDepth_cons2, if_pos hc]]
      rw [popToDepth_popToDepth hmn (collapseOnce (p :: q :: rest))]
      rw [show popToDepth m (p :: q :: rest) =
          popToDepth m (collapseOnce (p :: q :: rest)) from by
        rw [popToDepth_cons2, if_pos (by omega)]]
    · rw [show popToDepth n (p :: q :: rest) = p :: q :: rest from by
        rw [popToDepth_cons2, if_neg hc]]
termination_by S => S.length
decreasing_by simp [collapseOnce]

/-- One pop step: a stack one frame deeper than the indentation allows
collapses its top frame into the children of the frame below. -/
theorem popToDepth_push {d : Nat} {p q : PTask} {S : List PTask}
    (hlen : (q :: S).length = d + 1) :
    popToDepth (2 * d) (p :: q :: S) =
      { q with children := q.children ++ [p.toTask] } :: S := by
  rw [popToDepth_cons2, if_pos (by simp at hlen ⊢; omega)]
  rw [show collapseOnce (p :: q :: S) =
      ({ q with children := q.children ++ [p.toTask] } :: S) from rfl]
  exact popToDepth_eq_self (by simp at hlen ⊢; omega)

theorem collapseAll_popToDepth (n : Nat) : ∀ (S : List PTask),
    collapseAll (popToDepth n S) = collapseAll S
  | [] => by rw [popToDepth_nil]
  | [p] => by rw [popToDepth_one]
  | p :: q :: rest => by
    by_cases hc : 2 * ((p :: q :: rest).length - 1) > n
    · rw [show popToDepth n (p :: q :: rest) =
          popToDepth n (collapseOnce (p :: q :: rest)) from by
        rw [popToDepth_cons2, if_pos hc]]
      rw [collapseAll_popToDepth n (collapseOnce (p :: q :: rest))]
      simp only [collapseAll]
      rfl
    · rw [show popToDepth n (p :: q :: rest) = p :: q :: rest from by
        rw [popToDepth_cons2, if_neg hc]]
termination_by S => S.length
decreasing_by simp [collapseOnce]

/-! ## Folding the parser over a serialized task tree -/

theorem wfTaskText_parts {x : Str} (h : wfTaskText x = true) :
    x ≠ [] ∧ noNl x = true ∧ noTrailWs x = true ∧ dateTailFree x = true ∧
    dotOnly x = true := by
  unfold wfTaskText at h
  simp only [Bool.and_eq_true] at h
  obtain ⟨⟨⟨⟨h1, h2⟩, h3⟩, h4⟩, h5⟩ := h
  exact ⟨by simpa using h1, h2, h3, h4, h5⟩

theorem wfTask_parts {i x : Str} {c : Bool} {ca : Option Str} {n : List Note}
    {ch : List Task} (hw : wfTask (.mk i x c ca n ch) = true) :
    wfTaskText x = true ∧ (c = true ∨ ca = none) ∧
    (∀ dt, ca = some dt → dateShape dt = true) ∧
    n.all wfNote = true ∧ wfTaskList ch = true := by
  unfold wfTask at hw
  simp only [Bool.and_eq_true] at hw
  obtain ⟨⟨⟨⟨h1, h2⟩, h3⟩, h4⟩, h5⟩ := hw
  refine ⟨h1, ?_, ?_, h4, h5⟩
  · rcases Bool.or_eq_true _ _ |>.mp h2 with hc | hn
    · exact Or.inl hc
    · exact Or.inr (Option.isNone_iff_eq_none.mp hn)
  · intro dt hdt
    rw [hdt] at h3
    exact h3

/-- The checkbox regex splits a well-formed serialized task body back into
its text and completion date. -/
theorem splitCb_wf {x : Str} {ca : Option Str} (hx : wfTaskText x = true)
    (hca : ∀ dt, ca = some dt → dateShape dt = true) :
    splitCb (x ++ dateSfx ca) = some (x, ca) := by
  obtain ⟨hne, -, hnt, htf, hdot⟩ := wfTaskText_parts hx
  cases ca with
  | none =>
    rw [show dateSfx none = ([] : Str) from rfl, List.append_nil]
    exact splitCb_noDate hne htf hdot
  | some dt =>
    rw [show dateSfx (some dt) = ' ' :: '(' :: (dt ++ [')']) from rfl]
    exact splitCb_date hne hnt hdot (hca dt rfl)

/-- Folding the parser over the indented note lines of a subtask appends
the notes to the frame at the top of the stack. -/
theorem foldl_task_notes (gen : Nat → Str) :
    ∀ (notes : List Note) (H : List Habit) (Tk : List Task) (ch : Option Habit)
      (p : PTask) (S : List PTask) (k d : Nat),
    notes.all wfNote = true →
    (notes.map (fun nt => List.replicate (2 * d + 2) ' ' ++ noteLine nt)).foldl
        (lineStep gen) ⟨H, Tk, some .tasks, ch, p :: S, k⟩ =
      ⟨H, Tk, some .tasks, ch, { p with notes := p.notes ++ notes } :: S, k⟩ := by
  intro notes
  induction notes with
  | nil =>
    intro H Tk ch p S k d _
    simp only [List.map_nil, List.foldl_nil]
    rw [show ({ p with notes := p.notes ++ [] } : PTask) = p from by simp]
  | cons nt ns ih =>
    intro H Tk ch p S k d hw
    simp only [List.all_cons, Bool.and_eq_true] at hw
    obtain ⟨hca, hsep, htx, -, -, hnt, hdca, hdtx⟩ := wfNote_parts hw.1
    simp only [List.map_cons, List.foldl_cons]
    rw [noteLine_cons nt,
      lineStep_subNote gen H Tk ch (p :: S) k d (by simp) hca hsep hdca htx hdtx hnt]
    rw [show modifyTop (addNote ⟨nt.createdAt, nt.text⟩) (p :: S) = addNote nt p :: S from rfl]
    rw [ih H Tk ch (addNote nt p) S k d hw.2]
    simp [addNote, List.append_assoc]

/-- The induction motive for one subtask: folding its serialized lines from
any stack whose popped form is known pushes the reconstructed subtree onto
the children of the frame the indentation selects. -/
def taskFoldP (gen : Nat → Str) (t : Task) : Prop :=
  ∀ (d : Nat) (H : List Habit) (Tk : List Task) (chh : Option Habit)
    (S S₀ : List PTask) (q : PTask) (k : Nat),
    wfTask t = true →
    popToDepth (2 * d) S = q :: S₀ →
    (q :: S₀).length = d + 1 →
    ∃ T' : List PTask,
      (taskLines d t).foldl (lineStep gen) ⟨H, Tk, some .tasks, chh, S, k⟩ =
        ⟨H, Tk, some .tasks, chh, T', k + sizeT t⟩ ∧
      popToDepth (2 * d) T' = { q with children := q.children ++ [reTask gen k t] } :: S₀

/-- The induction motive for a subtask list. -/
def taskFoldQ (gen : Nat → Str) (ts : List Task) : Prop :=
  ∀ (d : Nat) (H : List Habit) (Tk : List Task) (chh : Option Habit)
    (S S₀ : List PTask) (q : PTask) (k : Nat),
    wfTaskList ts = true →
    popToDepth (2 * d) S = q :: S₀ →
    (q :: S₀).length = d + 1 →
    ∃ T' : List PTask,
      (taskListLines d ts).foldl (lineStep gen) ⟨H, Tk, some .tasks, chh, S, k⟩ =
        ⟨H, Tk, some .tasks, chh, T', k + sizeTs ts⟩ ∧
      popToDepth (2 * d) T' = { q with children := q.children ++ reTasks gen k ts } :: S₀

theorem taskFold_nil (gen : Nat → Str) : taskFoldQ gen [] := by
  intro d H Tk chh S S₀ q k _ hpop hlen
  refine ⟨S, ?_, ?_⟩
  · simp only [taskListLines, List.foldl_nil, sizeTs, Nat.add_zero]
  · rw [hpop]
    simp only [reTasks, List.append_nil]

theorem taskFold_cons (gen : Nat → Str) : ∀ t ts,
    taskFoldP gen t → taskFoldQ gen ts → taskFoldQ gen (t :: ts) := by
  intro t ts iht ihts d H Tk chh S S₀ q k hw hpop hlen
  simp only [wfTaskList, Bool.and_eq_true] at hw
  obtain ⟨T₁, hfold₁, hpop₁⟩ := iht d H Tk chh S S₀ q k hw.1 hpop hlen
  obtain ⟨T₂, hfold₂, hpop₂⟩ :=
    ihts d H Tk chh T₁ S₀ ({ q with children := q.children ++ [reTask gen k t] })
      (k + sizeT t) hw.2 hpop₁ (by simpa using hlen)
  refine ⟨T₂, ?_, ?_⟩
  · rw [show taskListLines d (t :: ts) = taskLines d t ++ taskListLines d ts from by
      simp only [taskListLines]]
    rw [List.foldl_append, hfold₁, hfold₂]
    rw [show k + sizeT t + sizeTs ts = k + sizeTs (t :: ts) from by
      simp only [sizeTs]
      omega]
  · rw [hpop₂]
    simp only [List.append_assoc, List.singleton_append]
    rw [show reTask gen k t :: reTasks gen (k + sizeT t) ts = reTasks gen k (t :: ts) from by
      simp only [reTasks]]

theorem taskFold_mk (gen : Nat → Str) : ∀ i x c ca n ch,
    taskFoldQ gen ch → taskFoldP gen (.mk i x c ca n ch) := by
  intro i x c ca n ch ihch d H Tk chh S S₀ q k hw hpop hlen
  obtain ⟨hx, -, hcad, hnotes, hwch⟩ := wfTask_parts hw
  have hS : S ≠ [] := by
    intro he
    rw [he, popToDepth_nil] at hpop
    exact List.noConfusion hpop
  have hm : (if c then 'x' else ' ') = 'x' ∨ (if c then 'x' else ' ') = ' ' := by
    cases c
    · exact Or.inr rfl
    · exact Or.inl rfl
  have hmx : ((if c then 'x' else ' ') = 'x' : Bool) = c := by
    cases c
    · rfl
    · rfl
  have hsplit := splitCb_wf hx hcad
  obtain ⟨T', hfold, hpop'⟩ :=
    ihch (d + 1) H Tk chh ((⟨gen k, x, c, ca, n, []⟩ : PTask) :: q :: S₀) (q :: S₀)
      (⟨gen k, x, c, ca, n, []⟩ : PTask) (k + 1) hwch
      (popToDepth_eq_self (by
        simp only [List.length_cons] at hlen ⊢
        omega))
      (by simpa using hlen)
  refine ⟨T', ?_, ?_⟩
  · simp only [taskLines]
    rw [List.foldl_cons,
      lineStep_checkbox gen H Tk chh S k d (if c then 'x' else ' ') x ca hS hm hsplit,
      hmx, hpop, List.foldl_append,
      foldl_task_notes gen n H Tk chh (freshPTask (gen k) x c ca) (q :: S₀) (k + 1) d hnotes]
    rw [show ({ freshPTask (gen k) x c ca with
          notes := (freshPTask (gen k) x c ca).notes ++ n } : PTask) =
        (⟨gen k, x, c, ca, n, []⟩ : PTask) from by simp [freshPTask]]
    rw [hfold]
    rw [show k + 1 + sizeTs ch = k + sizeT (Task.mk i x c ca n ch) from by
      simp only [sizeT]
      omega]
  · rw [← popToDepth_popToDepth (show 2 * d ≤ 2 * (d + 1) from by omega) T', hpop',
      popToDepth_push hlen]
    rw [show PTask.toTask ({ (⟨gen k, x, c, ca, n, []⟩ : PTask) with
        children := [] ++ reTasks gen (k + 1) ch }) = reTask gen k (Task.mk i x c ca n ch) from by
      simp only [PTask.toTask, List.nil_append, reTask]]

theorem taskFold_list (gen : Nat → Str) : ∀ ts, taskFoldQ gen ts :=
  task_list_induct (taskFoldP gen) (taskFoldQ gen) (taskFold_mk gen) (taskFold_nil gen)
    (taskFold_cons gen)

/-! ## Folding the parser over a serialized top-level task block -/

/-- The heading branch of the tasks section in constructor-state form. -/
theorem lineStep_taskHeading_c (gen : Nat → Str) (H : List Habit) (Tk : List Task)
    (chh : Option Habit) (S : List PTask) (k : Nat) (x : Str) :
    lineStep gen ⟨H, Tk, some .tasks, chh, S, k⟩ ("## ".data ++ x) =
      ⟨H, Tk ++ (match collapseAll S with | some u => [u] | none => []), some .tasks, chh,
        [freshPTask (gen k) x false none], k + 1⟩ :=
  lineStep_taskHeading gen x rfl

/-- Folding the parser over the unindented note lines of a top-level task
with a singleton stack appends the notes to the root frame. -/
theorem foldl_top_notes (gen : Nat → Str) :
    ∀ (notes : List Note) (H : List Habit) (Tk : List Task) (ch : Option Habit)
      (p : PTask) (k : Nat),
    notes.all wfNote = true →
    (notes.map noteLine).foldl (lineStep gen) ⟨H, Tk, some .tasks, ch, [p], k⟩ =
      ⟨H, Tk, some .tasks, ch, [{ p with notes := p.notes ++ notes }], k⟩ := by
  intro notes
  induction notes with
  | nil =>
    intro H Tk ch p k _
    simp only [List.map_nil, List.foldl_nil]
    rw [show ({ p with notes := p.notes ++ [] } : PTask) = p from by simp]
  | cons nt ns ih =>
    intro H Tk ch p k hw
    simp only [List.all_cons, Bool.and_eq_true] at hw
    obtain ⟨hca, hsep, htx, -, -, -, hdca, hdtx⟩ := wfNote_parts hw.1
    simp only [List.map_cons, List.foldl_cons]
    rw [noteLine_cons nt, lineStep_topNote gen H Tk ch p k hca hsep hdca htx hdtx]
    rw [ih H Tk ch (addNote nt p) k hw.2]
    simp [addNote, List.append_assoc]

/-- Folding the parser over one serialized top-level task block: the pending
task tree is flushed to the accumulated tasks, and the whole stack left
behind collapses to the block's task with ids reassigned in preorder. -/
theorem foldl_topTask (gen : Nat → Str) (H : List Habit) (Tk : List Task)
    (chh : Option Habit) (S : List PTask) (k : Nat) (t : Task) (hw : wfTask t = true) :
    ∃ T' : List PTask,
      (topTaskLines t).foldl (lineStep gen) ⟨H, Tk, some .tasks, chh, S, k⟩ =
        ⟨H, Tk ++ (match collapseAll S with | some u => [u] | none => []),
          some .tasks, chh, T', k + sizeT t⟩ ∧
      collapseAll T' = some (reTask gen k t) := by
  cases t with
  | mk i x c ca n ch =>
    obtain ⟨hx, hcc, hcad, hnotes, hwch⟩ := wfTask_parts hw
    obtain ⟨T', hfold, hpop0⟩ :=
      taskFold_list gen ch 0 H
        (Tk ++ (match collapseAll S with | some u => [u] | none => [])) chh
        [(⟨gen k, x, c, ca, n, []⟩ : PTask)] [] (⟨gen k, x, c, ca, n, []⟩ : PTask)
        (k + 1) hwch (popToDepth_one _ _) rfl
    have hcoll : collapseAll T' = some (reTask gen k (Task.mk i x c ca n ch)) := by
      rw [← collapseAll_popToDepth (2 * 0) T', hpop0]
      simp only [collapseAll, PTask.toTask, reTask, List.nil_append]
    refine ⟨T', ?_, hcoll⟩
    simp only [topTaskLines, Task.text, Task.completed, Task.completedAt, Task.notes,
      Task.children]
    rw [List.foldl_cons, lineStep_taskHeading_c gen H Tk chh S k x]
    have hframe : ∀ (p : PTask),
        (n.map noteLine ++ (taskListLines 0 ch ++ [[]])).foldl (lineStep gen)
          ⟨H, Tk ++ (match collapseAll S with | some u => [u] | none => []),
            some .tasks, chh, [p], k + 1⟩ =
        (taskListLines 0 ch ++ [[]]).foldl (lineStep gen)
          ⟨H, Tk ++ (match collapseAll S with | some u => [u] | none => []),
            some .tasks, chh, [{ p with notes := p.notes ++ n }], k + 1⟩ := by
      intro p
      rw [List.foldl_append, foldl_top_notes gen n _ _ chh p (k + 1) hnotes]
    cases hc : c with
    | true =>
      rw [hc] at hfold
      rw [if_pos rfl]
      rw [List.singleton_append, List.foldl_cons, completedDateStr_dateSfx,
        lineStep_status gen H _ chh [freshPTask (gen (k)) x false none] (k + 1) ca
          (by simp) hcad]
      rw [show modifyBottom (statusUpdate ca) [freshPTask (gen k) x false none] =
          [statusUpdate ca (freshPTask (gen k) x false none)] from rfl]
      rw [show statusUpdate ca (freshPTask (gen k) x false none) =
          (⟨gen k, x, true, ca, [], []⟩ : PTask) from by cases ca <;> rfl]
      rw [hframe]
      rw [show ({ (⟨gen k, x, true, ca, [], []⟩ : PTask) with
          notes := (⟨gen k, x, true, ca, [], []⟩ : PTask).notes ++ n } : PTask) =
          (⟨gen k, x, true, ca, n, []⟩ : PTask) from by simp]
      rw [List.foldl_append, hfold, List.foldl_cons, lineStep_empty, List.foldl_nil]
      rw [show k + 1 + sizeTs ch = k + sizeT (Task.mk i x true ca n ch) from by
        simp only [sizeT]
        omega]
    | false =>
      have hca0 : ca = none := by
        rcases hcc with h | h
        · rw [hc] at h
          exact absurd h (by simp)
        · exact h
      rw [hc, hca0] at hfold
      rw [if_neg (by simp), List.nil_append]
      rw [hframe]
      rw [show ({ freshPTask (gen k) x false none with
          notes := (freshPTask (gen k) x false none).notes ++ n } : PTask) =
          (⟨gen k, x, false, none, n, []⟩ : PTask) from by simp [freshPTask]]
      rw [hca0]
      rw [List.foldl_append, hfold, List.foldl_cons, lineStep_empty, List.foldl_nil]
      rw [show k + 1 + sizeTs ch = k + sizeT (Task.mk i x false none n ch) from by
        simp only [sizeT]
        omega]

/-- Folding the parser over all serialized top-level task blocks: the
accumulated tasks together with the final pending flush are the original
tasks with ids reassigned in preorder. -/
theorem foldl_topTasks (gen : Nat → Str) : ∀ (ts : List Task) (H : List Habit)
    (Tk : List Task) (chh : Option Habit) (S : List PTask) (k : Nat),
    wfTaskList ts = true →
    ∃ (Tk2 : List Task) (T' : List PTask),
      (ts.flatMap topTaskLines).foldl (lineStep gen) ⟨H, Tk, some .tasks, chh, S, k⟩ =
        ⟨H, Tk2, some .tasks, chh, T', k + sizeTs ts⟩ ∧
      Tk2 ++ (match collapseAll T' with | some u => [u] | none => []) =
        Tk ++ (match collapseAll S with | some u => [u] | none => []) ++ reTasks gen k ts := by
  intro ts
  induction ts with
  | nil =>
    intro H Tk chh S k _
    refine ⟨Tk, S, ?_, ?_⟩
    · simp only [List.flatMap_nil, List.foldl_nil, sizeTs, Nat.add_zero]
    · simp only [reTasks, List.append_nil]
  | cons t ts ih =>
    intro H Tk chh S k hw
    simp only [wfTaskList, Bool.and_eq_true] at hw
    obtain ⟨T₁, hfold₁, hcoll₁⟩ := foldl_topTask gen H Tk chh S k t hw.1
    obtain ⟨Tk2, T', hfold₂, hacc⟩ :=
      ih H (Tk ++ (match collapseAll S with | some u => [u] | none => [])) chh T₁
        (k + sizeT t) hw.2
    refine ⟨Tk2, T', ?_, ?_⟩
    · rw [List.flatMap_cons, List.foldl_append, hfold₁, hfold₂]
      rw [show k + sizeT t + sizeTs ts = k + sizeTs (t :: ts) from by
        simp only [sizeTs]
        omega]
    · rw [hacc, hcoll₁]
      rw [show (match some (reTask gen k t) with
          | some u => [u] | none => ([] : List Task)) = [reTask gen k t] from rfl]
      rw [show reTasks gen k (t :: ts) = reTask gen k t :: reTasks gen (k + sizeT t) ts from by
        simp only [reTasks]]
      simp [List.append_assoc]

/-! ## Newline-freedom of every serialized line -/

theorem noNl_append (a b : Str) : noNl (a ++ b) = (noNl a && noNl b) := by
  simp [noNl, Bool.not_or]

theorem noNl_cons (c : Char) (r : Str) (hc : c ≠ '\n') : noNl (c :: r) = noNl r := by
  simp [noNl, hc]
  intro
  exact fun he => hc he.symm

theorem noNl_of_not_mem {s : Str} (h : '\n' ∉ s) : noNl s = true := by
  simp [noNl]
  exact h

theorem noNl_replicate (n : Nat) : noNl (List.replicate n ' ') = true := by
  apply noNl_of_not_mem
  intro h
  have := List.eq_of_mem_replicate h
  exact absurd this (by decide)

theorem noNl_natToStr (n : Nat) : noNl (natToStr n) = true := by
  apply noNl_of_not_mem
  intro h
  have := natToStr_mem_digits n '\n' h
  exact absurd this (by decide)

theorem noNl_intToStr (i : Int) : noNl (intToStr i) = true := by
  unfold intToStr
  split
  · rw [noNl_cons _ _ (by decide)]
    exact noNl_natToStr _
  · exact noNl_natToStr _

theorem isDigit_ne_nl {c : Char} (h : c.isDigit = true) : c ≠ '\n' := by
  intro he
  rw [he] at h
  exact absurd h (by decide)

theorem noNl_dateShape {d : Str} (h : dateShape d = true) : noNl d = true := by
  rcases dateShape_elim h with ⟨c1, c2, c3, c4, c5, c6, c7, c8, c9, c10, rfl⟩
  unfold dateShape at h
  simp only [Bool.and_eq_true, decide_eq_true_eq] at h
  obtain ⟨⟨⟨⟨⟨⟨⟨⟨⟨h1, h2⟩, h3⟩, h4⟩, h5⟩, h6⟩, h7⟩, h8⟩, h9⟩, h10⟩ := h
  rw [noNl_cons _ _ (isDigit_ne_nl h1), noNl_cons _ _ (isDigit_ne_nl h2),
    noNl_cons _ _ (isDigit_ne_nl h3), noNl_cons _ _ (isDigit_ne_nl h4),
    noNl_cons _ _ (by rw [h5]; decide), noNl_cons _ _ (isDigit_ne_nl h6),
    noNl_cons _ _ (isDigit_ne_nl h7), noNl_cons _ _ (by rw [h8]; decide),
    noNl_cons _ _ (isDigit_ne_nl h9), noNl_cons _ _ (isDigit_ne_nl h10)]
  decide

theorem noNl_dateSfx {ca : Option Str} (h : ∀ d, ca = some d → dateShape d = true) :
    noNl (dateSfx ca) = true := by
  cases ca with
  | none => decide
  | some d =>
    rw [show dateSfx (some d) = ' ' :: '(' :: (d ++ [')']) from rfl]
    rw [noNl_cons _ _ (by decide), noNl_cons _ _ (by decide), noNl_append,
      noNl_dateShape (h d rfl)]
    decide

theorem noNl_noteLine {nt : Note} (hw : wfNote nt = true) : noNl (noteLine nt) = true := by
  obtain ⟨-, -, -, hca, htx, -, -, -⟩ := wfNote_parts hw
  unfold noteLine
  rw [noNl_append, noNl_append, noNl_append, hca, htx]
  decide

theorem habitLines_noNl {h : Habit} (hw : wfHabit h = true) :
    ∀ l ∈ habitLines h, noNl l = true := by
  obtain ⟨htext, -, -, hlast, hnotes⟩ := wfHabit_parts hw
  intro l hl
  unfold habitLines at hl
  simp only [List.mem_cons, List.mem_append, List.mem_map, List.mem_singleton] at hl
  rcases hl with rfl | rfl | rfl | rfl | ⟨nt, hnt, rfl⟩ | rfl | h0
  · rw [noNl_append, htext]
    decide
  · rw [noNl_append, noNl_append, noNl_intToStr]
    decide
  · rw [noNl_append, noNl_intToStr]
    decide
  · rw [noNl_append]
    have : noNl (lastCompletedStr h.lastCompleted) = true := by
      cases hlc : h.lastCompleted with
      | none => decide
      | some s =>
        obtain ⟨-, -, hnl⟩ := hlast s hlc
        show noNl (if s.isEmpty then "never".data else s) = true
        split
        · decide
        · exact hnl
    rw [this]
    decide
  · exact noNl_noteLine (by
      rw [List.all_eq_true] at hnotes
      exact hnotes nt hnt)
  · decide
  · simp at h0

theorem taskListLines_noNl (ts : List Task) (hw : wfTaskList ts = true) :
    ∀ d l, l ∈ taskListLines d ts → noNl l = true := by
  refine task_list_induct
    (fun t => wfTask t = true → ∀ d l, l ∈ taskLines d t → noNl l = true)
    (fun ts => wfTaskList ts = true → ∀ d l, l ∈ taskListLines d ts → noNl l = true)
    ?_ ?_ ?_ ts hw
  · intro i x c ca n ch ihch hwt d l hl
    obtain ⟨hx, -, hcad, hnotes, hwch⟩ := wfTask_parts hwt
    obtain ⟨-, hxnl, -, -, -⟩ := wfTaskText_parts hx
    simp only [taskLines, List.mem_cons, List.mem_append, List.mem_map] at hl
    rcases hl with rfl | ⟨nt, hnt, rfl⟩ | hl
    · rw [noNl_append, noNl_replicate, noNl_cons _ _ (by decide),
        noNl_cons _ _ (by decide), noNl_cons _ _ (by decide),
        noNl_cons _ _ (by cases c <;> decide), noNl_cons _ _ (by decide),
        noNl_cons _ _ (by decide), noNl_append, hxnl, noNl_dateSfx hcad]
      rfl
    · rw [noNl_append, noNl_replicate, noNl_noteLine (by
        rw [List.all_eq_true] at hnotes
        exact hnotes nt hnt)]
      rfl
    · exact ihch hwch (d + 1) l hl
  · intro _ d l hl
    simp [taskListLines] at hl
  · intro t ts iht ihts hwl d l hl
    simp only [wfTaskList, Bool.and_eq_true] at hwl
    simp only [taskListLines, List.mem_append] at hl
    rcases hl with hl | hl
    · exact iht hwl.1 d l hl
    · exact ihts hwl.2 d l hl

theorem topTaskLines_noNl {t : Task} (hw : wfTask t = true) :
    ∀ l ∈ topTaskLines t, noNl l = true := by
  intro l hl
  cases t with
  | mk i x c ca n ch =>
    obtain ⟨hx, -, hcad, hnotes, hwch⟩ := wfTask_parts hw
    obtain ⟨-, hxnl, -, -, -⟩ := wfTaskText_parts hx
    simp only [topTaskLines, Task.text, Task.completed, Task.completedAt, Task.notes,
      Task.children, List.mem_cons, List.mem_append, List.mem_map] at hl
    rcases hl with rfl | hl | ⟨nt, hnt, rfl⟩ | hl | rfl | h0
    · rw [noNl_append, hxnl]
      rfl
    · have : l = "- Status: completed".data ++ completedDateStr ca := by
        rcases c with - | -
        · simp at hl
        · simpa using hl
      rw [this, completedDateStr_dateSfx, noNl_append, noNl_dateSfx hcad]
      rfl
    · exact noNl_noteLine (by
        rw [List.all_eq_true] at hnotes
        exact hnotes nt hnt)
    · exact taskListLines_noNl ch hwch 0 l hl
    · decide
    · simp at h0

/-! ## The parse of a serialized well-formed state -/

theorem map_stripHabit_parsedHabits (gen : Nat → Str) :
    ∀ (hs : List Habit) (k : Nat),
    (parsedHabits gen k hs).map stripHabit = hs.map stripHabit := by
  intro hs
  induction hs with
  | nil => intro k; rfl
  | cons h hs ih =>
    intro k
    simp only [parsedHabits, List.map_cons, ih]
    rfl

theorem stripTaskList_reTasks (gen : Nat → Str) : ∀ (ts : List Task) (k : Nat),
    stripTaskList (reTasks gen k ts) = stripTaskList ts := by
  refine fun ts => task_list_induct
    (fun t => ∀ k, stripTask (reTask gen k t) = stripTask t)
    (fun ts => ∀ k, stripTaskList (reTasks gen k ts) = stripTaskList ts) ?_ ?_ ?_ ts
  · intro i x cb ca n ch ihch k
    simp only [reTask, stripTask, ihch]
  · intro k
    simp only [reTasks]
  · intro t ts iht ihts k
    simp only [reTasks, stripTaskList, iht, ihts]

theorem wfTaskList_mem : ∀ {ts : List Task} {t : Task},
    wfTaskList ts = true → t ∈ ts → wfTask t = true := by
  intro ts
  induction ts with
  | nil =>
    intro t _ h
    simp at h
  | cons a as ih =>
    intro t hw hm
    simp only [wfTaskList, Bool.and_eq_true] at hw
    rcases List.mem_cons.mp hm with rfl | hm
    · exact hw.1
    · exact ih hw.2 hm

/-- The serialized state splits into exactly the line sequence the parser
is folded over. -/
theorem splitNl_serialize (hs : List Habit) (ts : List Task)
    (hwh : hs.all wfHabit = true) (hwt : wfTaskList ts = true) :
    splitNl (serializeToMarkdown hs ts) =
      "# Habits".data :: [] :: ((hs.flatMap habitLines ++
        ["---".data, [], "# Tasks".data, []]) ++ (ts.flatMap topTaskLines ++ [[]])) := by
  have h1 : serializeToMarkdown hs ts =
      linesJoin ("# Habits".data :: [] :: ((hs.flatMap habitLines ++
        ["---".data, [], "# Tasks".data, []]) ++ ts.flatMap topTaskLines)) [] := by
    unfold serializeToMarkdown
    rw [show ("# Habits".data :: [] :: ((hs.flatMap habitLines ++
        ["---".data, [], "# Tasks".data, []]) ++ ts.flatMap topTaskLines) : List Str) =
        ["# Habits".data, []] ++ ((hs.flatMap habitLines ++
        ["---".data, [], "# Tasks".data, []]) ++ ts.flatMap topTaskLines) from rfl]
    rw [linesJoin_append, linesJoin_append, linesJoin_append]
    rw [← habitsBlock_linesJoin, ← topTasksBlock_linesJoin]
    simp [linesJoin, List.append_assoc]
  rw [h1, splitNl_linesJoin [] (by
    intro l hl
    simp only [List.mem_cons, List.mem_append, List.mem_flatMap] at hl
    rcases hl with rfl | rfl | ⟨⟨h, hh, hl⟩ | hmid⟩ | ⟨t, ht, hl⟩
    · decide
    · decide
    · exact habitLines_noNl (by
        rw [List.all_eq_true] at hwh
        exact hwh h hh) l hl
    · rcases hmid with rfl | rfl | rfl | rfl | h0
      · decide
      · decide
      · decide
      · decide
      · simp at h0
    · exact topTaskLines_noNl (wfTaskList_mem hwt ht) l hl)]
  rw [splitNl_nil]
  simp [List.append_assoc]

/-- parseMarkdown inverts serializeToMarkdown on a well-formed state up to
the ids, which are reassigned from the supply: habits first in order, then
every task in preorder. -/
theorem parse_serialize (gen : Nat → Str) (hs : List Habit) (ts : List Task)
    (hwh : hs.all wfHabit = true) (hwt : wfTaskList ts = true) :
    parseMarkdown gen (serializeToMarkdown hs ts) =
      ⟨parsedHabits gen 0 hs, reTasks gen hs.length ts⟩ := by
  unfold parseMarkdown
  rw [splitNl_serialize hs ts hwh hwt, List.foldl_cons, List.foldl_cons,
    show lineStep gen initPSt ("# Habits".data) = ⟨[], [], some .habits, none, [], 0⟩ from
      lineStep_habitsHdr gen initPSt,
    lineStep_empty, List.foldl_append]
  have h2 : (hs.flatMap habitLines ++ ["---".data, [], "# Tasks".data, []]).foldl
      (lineStep gen) ⟨[], [], some .habits, none, [], 0⟩ =
      ⟨parsedHabits gen 0 hs, [], some .tasks, none, [], hs.length⟩ := by
    rw [foldl_habitsSection gen hs _ hwh rfl]
    simp
  rw [h2]
  obtain ⟨Tk2, T', hfold, hacc⟩ :=
    foldl_topTasks gen ts (parsedHabits gen 0 hs) [] none [] hs.length hwt
  rw [List.foldl_append, hfold, List.foldl_cons, lineStep_empty, List.foldl_nil]
  unfold finalizeState
  rw [show collapseAll ([] : List PTask) = none from by simp only [collapseAll]] at hacc
  simp only [] at hacc ⊢
  rw [hacc]
  simp

/-! ## Totality of the checked parser -/

theorem modifyTopChecked_some (f : PTask → PTask) {S : List PTask} (h : S ≠ []) :
    modifyTopChecked f S = some (modifyTop f S) := by
  cases S with
  | nil => exact absurd rfl h
  | cons p rest => rfl

theorem modifyBottomChecked_some (f : PTask → PTask) : ∀ {S : List PTask}, S ≠ [] →
    modifyBottomChecked f S = some (modifyBottom f S)
  | [], h => absurd rfl h
  | [p], _ => rfl
  | p :: q :: rest, _ => by
    rw [show modifyBottomChecked f (p :: q :: rest) =
        (modifyBottomChecked f (q :: rest)).map (fun l => p :: l) from by
      simp only [modifyBottomChecked]]
    rw [modifyBottomChecked_some f (by simp)]
    rw [show modifyBottom f (p :: q :: rest) = p :: modifyBottom f (q :: rest) from by
      simp only [modifyBottom]]
    rfl

theorem taskLineStepChecked_some (gen : Nat → Str) (st : PSt) (line : Str)
    (hS : st.stack ≠ []) :
    taskLineStepChecked gen st line = some (taskLineStep gen st line) := by
  unfold taskLineStepChecked taskLineStep
  split
  · rw [modifyBottomChecked_some _ hS]
    rfl
  · split
    · rw [modifyBottomChecked_some _ hS]
      rfl
    · split
      · split
        · rw [modifyBottomChecked_some _ hS]
          rfl
        · rfl
      · split
        · split
          · rcases hpop : popToDepth _ st.stack with - | ⟨parent, rest⟩
            · exact absurd hpop (popToDepth_ne_nil hS)
            · rfl
          · rfl
        · split
          · split
            · rw [modifyTopChecked_some _ hS]
              rfl
            · rfl
          · split
            · split
              · split
                · rw [modifyTopChecked_some _ hS]
                  rfl
                · rfl
              · rfl
            · rfl

theorem lineStepChecked_some (gen : Nat → Str) (st : PSt) (line : Str) :
    lineStepChecked gen st line = some (lineStep gen st line) := by
  unfold lineStepChecked lineStep
  split
  · rfl
  · split
    · split
      · rfl
      · rfl
    · split
      · rfl
      · split
        · split
          · rfl
          · split
            · rfl
            · rfl
        · split
          · split
            · rfl
            · split
              · rfl
              · rename_i hsect2 hhead hne
                exact taskLineStepChecked_some gen st line (by
                  intro he
                  rw [he] at hne
                  simp at hne)
          · rfl

theorem foldlM_lineStepChecked (gen : Nat → Str) : ∀ (ls : List Str) (st : PSt),
    ls.foldlM (lineStepChecked gen) st = some (ls.foldl (lineStep gen) st) := by
  intro ls
  induction ls with
  | nil => intro st; rfl
  | cons l ls ih =>
    intro st
    rw [List.foldlM_cons, lineStepChecked_some gen st l]
    rw [show (some (lineStep gen st l) >>= fun s => ls.foldlM (lineStepChecked gen) s) =
        ls.foldlM (lineStepChecked gen) (lineStep gen st l) from rfl]
    exact ih (lineStep gen st l)

/-! ## The serializer ignores ids -/

theorem serializeHabit_strip (h : Habit) : serializeHabit (stripHabit h) = serializeHabit h :=
  rfl

theorem habitsBlock_mapStrip (hs : List Habit) :
    habitsBlock (hs.map stripHabit) = habitsBlock hs := by
  induction hs with
  | nil => rfl
  | cons h hs ih =>
    simp only [List.map_cons, habitsBlock, serializeHabit_strip, ih]

theorem serializeTaskList_strip : ∀ (ts : List Task) (d : Nat),
    serializeTaskList (stripTaskList ts) d = serializeTaskList ts d := by
  refine fun ts => task_list_induct
    (fun t => ∀ d, serializeTask (stripTask t) d = serializeTask t d)
    (fun ts => ∀ d, serializeTaskList (stripTaskList ts) d = serializeTaskList ts d)
    ?_ ?_ ?_ ts
  · intro i x cp ca n ch ihch d
    simp only [stripTask, serializeTask, ihch]
  · intro d
    simp only [stripTaskList, serializeTaskList]
  · intro t ts iht ihts d
    simp only [stripTaskList, serializeTaskList, iht, ihts]

theorem serializeTask_strip : ∀ (t : Task) (d : Nat),
    serializeTask (stripTask t) d = serializeTask t d := by
  refine fun t => task_induct
    (fun t => ∀ d, serializeTask (stripTask t) d = serializeTask t d)
    (fun ts => ∀ d, serializeTaskList (stripTaskList ts) d = serializeTaskList ts d)
    ?_ ?_ ?_ t
  · intro i x cp ca n ch ihch d
    simp only [stripTask, serializeTask, ihch]
  · intro d
    simp only [stripTaskList, serializeTaskList]
  · intro t ts iht ihts d
    simp only [stripTaskList, serializeTaskList, iht, ihts]

theorem serializeTopTask_strip (t : Task) :
    serializeTopTask (stripTask t) = serializeTopTask t := by
  cases t with
  | mk i x cp ca n ch =>
    simp only [stripTask, serializeTopTask, serializeTaskList_strip]

theorem topTasksBlock_strip (ts : List Task) :
    topTasksBlock (stripTaskList ts) = topTasksBlock ts := by
  induction ts with
  | nil => rfl
  | cons t ts ih =>
    simp only [stripTaskList, topTasksBlock, serializeTopTask_strip, ih]

theorem serializeToMarkdown_strip (hs : List Habit) (ts : List Task) :
    serializeToMarkdown (hs.map stripHabit) (stripTaskList ts) =
      serializeToMarkdown hs ts := by
  unfold serializeToMarkdown
  rw [habitsBlock_mapStrip, topTasksBlock_strip]

/-- The serialized text depends only on the id-stripped state. -/
theorem serializeToMarkdown_congr {s1 s2 : AppState} (h : stripState s1 = stripState s2) :
    serializeToMarkdown s1.habits s1.tasks = serializeToMarkdown s2.habits s2.tasks := by
  unfold stripState at h
  rw [AppState.mk.injEq] at h
  calc serializeToMarkdown s1.habits s1.tasks
      = serializeToMarkdown (s1.habits.map stripHabit) (stripTaskList s1.tasks) :=
        (serializeToMarkdown_strip _ _).symm
    _ = serializeToMarkdown (s2.habits.map stripHabit) (stripTaskList s2.tasks) := by
        rw [h.1, h.2]
    _ = serializeToMarkdown s2.habits s2.tasks := serializeToMarkdown_strip _ _

/-- The round trip restores the state up to ids. -/
theorem stripState_parse_serialize (gen : Nat → Str) (s : AppState)
    (hw : wfState s = true) :
    stripState (parseMarkdown gen (serializeToMarkdown s.habits s.tasks)) = stripState s := by
  unfold wfState at hw
  rw [Bool.and_eq_true] at hw
  rw [parse_serialize gen s.habits s.tasks hw.1 hw.2]
  unfold stripState
  rw [AppState.mk.injEq]
  exact ⟨map_stripHabit_parsedHabits gen s.habits 0,
    stripTaskList_reTasks gen s.tasks s.habits.length⟩

/-! ## Ids of a parsed state are drawn from the supply -/

mutual

/-- Every id of a task tree, in preorder. -/
def taskIds : Task → List Str
  | .mk i _ _ _ _ ch => i :: taskIdsList ch

def taskIdsList : List Task → List Str
  | [] => []
  | t :: ts => taskIds t ++ taskIdsList ts

end

/-- The ids held by one stack frame. -/
def pIds (p : PTask) : List Str := p.id :: taskIdsList p.children

/-- The ids held by the ancestor stack. -/
def stackIds : List PTask → List Str
  | [] => []
  | p :: S => pIds p ++ stackIds S

def curHabitIds : Option Habit → List Str
  | some h => [h.id]
  | none => []

/-- Every id a parser state holds anywhere: accumulated habits and tasks,
the pending habit, and the ancestor stack. -/
def stIds (st : PSt) : List Str :=
  st.habits.map Habit.id ++ taskIdsList st.tasks ++ curHabitIds st.curHabit ++
    stackIds st.stack

theorem taskIdsList_append (a b : List Task) :
    taskIdsList (a ++ b) = taskIdsList a ++ taskIdsList b := by
  induction a with
  | nil => simp [taskIdsList]
  | cons t ts ih =>
    simp only [List.cons_append, taskIdsList, List.append_assoc, List.append_eq, ih]

theorem taskIds_toTask (p : PTask) : taskIds (PTask.toTask p) = pIds p := by
  simp only [PTask.toTask, taskIds, pIds]

theorem mem_stackIds_collapseOnce {i : Str} : ∀ {S : List PTask},
    i ∈ stackIds (collapseOnce S) → i ∈ stackIds S
  | [], h => h
  | [p], h => h
  | p :: q :: rest, h => by
    simp only [collapseOnce, stackIds, pIds, taskIdsList_append, taskIdsList,
      taskIds_toTask, List.mem_append, List.mem_cons, List.append_nil,
      List.not_mem_nil, or_false] at h ⊢
    tauto

theorem mem_stackIds_popToDepth {i : Str} (n : Nat) : ∀ (S : List PTask),
    i ∈ stackIds (popToDepth n S) → i ∈ stackIds S
  | [] => by
    rw [popToDepth_nil]
    exact id
  | [p] => by
    rw [popToDepth_one]
    exact id
  | p :: q :: rest => by
    rw [popToDepth_cons2]
    by_cases hc : 2 * ((p :: q :: rest).length - 1) > n
    · rw [if_pos hc]
      intro h
      exact mem_stackIds_collapseOnce
        (mem_stackIds_popToDepth n (collapseOnce (p :: q :: rest)) h)
    · rw [if_neg hc]
      exact id
termination_by S => S.length
decreasing_by simp [collapseOnce]

theorem mem_taskIds_collapseAll {i : Str} {t : Task} : ∀ {S : List PTask},
    collapseAll S = some t → i ∈ taskIds t → i ∈ stackIds S
  | [], h, _ => by simp [collapseAll] at h
  | [p], h, hi => by
    rw [show collapseAll [p] = some (PTask.toTask p) from by simp only [collapseAll]] at h
    rw [Option.some.injEq] at h
    subst h
    rw [taskIds_toTask] at hi
    simp only [stackIds, List.append_nil]
    exact hi
  | p :: q :: rest, h, hi => by
    rw [show collapseAll (p :: q :: rest) =
        collapseAll (collapseOnce (p :: q :: rest)) from by
      simp only [collapseAll]
      rfl] at h
    exact mem_stackIds_collapseOnce (mem_taskIds_collapseAll h hi)
termination_by S => S.length
decreasing_by simp [collapseOnce]

theorem habitLineStep_id (h : Habit) (line : Str) : (habitLineStep h line).id = h.id := by
  unfold habitLineStep
  repeat' split
  all_goals rfl

theorem pIds_statusUpdate (md : Option Str) (p : PTask) :
    pIds (statusUpdate md p) = pIds p := rfl

theorem pIds_addNote (nt : Note) (p : PTask) : pIds (addNote nt p) = pIds p := rfl

theorem stackIds_modifyTop {f : PTask → PTask} (hf : ∀ p, pIds (f p) = pIds p) :
    ∀ (S : List PTask), stackIds (modifyTop f S) = stackIds S
  | [] => rfl
  | p :: rest => by simp only [modifyTop, stackIds, hf]

theorem stackIds_modifyBottom {f : PTask → PTask} (hf : ∀ p, pIds (f p) = pIds p) :
    ∀ (S : List PTask), stackIds (modifyBottom f S) = stackIds S
  | [] => rfl
  | [p] => by simp only [modifyBottom, stackIds, hf]
  | p :: q :: rest => by
    rw [show modifyBottom f (p :: q :: rest) = p :: modifyBottom f (q :: rest) from by
      simp only [modifyBottom]]
    simp only [stackIds, stackIds_modifyBottom hf (q :: rest)]

theorem mem_stIds {i : Str} {st : PSt} :
    i ∈ stIds st ↔ (i ∈ st.habits.map Habit.id ∨ i ∈ taskIdsList st.tasks ∨
      i ∈ curHabitIds st.curHabit ∨ i ∈ stackIds st.stack) := by
  simp [stIds, List.mem_append, or_assoc]

theorem mem_stIds_taskLineStep (gen : Nat → Str) (st : PSt) (line : Str) {i : Str}
    (hi : i ∈ stIds (taskLineStep gen st line)) :
    i ∈ stIds st ∨ ∃ m, i = gen m := by
  unfold taskLineStep at hi
  split at hi
  · left
    simp only [stIds, stackIds_modifyBottom (pIds_statusUpdate _)] at hi
    exact hi
  · split at hi
    · left
      simp only [stIds, stackIds_modifyBottom (pIds_addNote _)] at hi
      exact hi
    · split at hi
      · split at hi
        · left
          simp only [stIds, stackIds_modifyBottom (pIds_addNote _)] at hi
          exact hi
        · exact Or.inl hi
      · split at hi
        · split at hi
          · rw [mem_stIds] at hi
            rcases hi with h1 | h2 | h3 | h4
            · exact Or.inl (mem_stIds.mpr (Or.inl h1))
            · exact Or.inl (mem_stIds.mpr (Or.inr (Or.inl h2)))
            · exact Or.inl (mem_stIds.mpr (Or.inr (Or.inr (Or.inl h3))))
            · simp only [stackIds, pIds, freshPTask, taskIdsList, List.append_nil,
                List.mem_cons, List.mem_append] at h4
              rcases h4 with (h4a | h4x) | h4b
              · exact Or.inr ⟨st.nextId, h4a⟩
              · simp at h4x
              · exact Or.inl (mem_stIds.mpr (Or.inr (Or.inr (Or.inr
                  (mem_stackIds_popToDepth _ st.stack h4b)))))
          · exact Or.inl hi
        · split at hi
          · split at hi
            · left
              simp only [stIds, stackIds_modifyTop (pIds_addNote _)] at hi
              exact hi
            · exact Or.inl hi
          · split at hi
            · split at hi
              · split at hi
                · left
                  simp only [stIds, stackIds_modifyTop (pIds_addNote _)] at hi
                  exact hi
                · exact Or.inl hi
              · exact Or.inl hi
            · exact Or.inl hi

theorem mem_stIds_lineStep (gen : Nat → Str) (st : PSt) (line : Str) {i : Str}
    (hi : i ∈ stIds (lineStep gen st line)) :
    i ∈ stIds st ∨ ∃ m, i = gen m := by
  unfold lineStep at hi
  split at hi
  · exact Or.inl hi
  · split at hi
    · split at hi
      · rename_i h0 heq
        left
        rw [mem_stIds] at hi ⊢
        rcases hi with h1 | h2 | h3 | h4
        · rw [List.map_append, List.mem_append] at h1
          rcases h1 with h1a | h1b
          · exact Or.inl h1a
          · simp only [List.map_cons, List.map_nil, List.mem_cons,
              List.not_mem_nil, or_false] at h1b
            refine Or.inr (Or.inr (Or.inl ?_))
            rw [heq]
            simp only [curHabitIds, List.mem_cons, List.not_mem_nil, or_false]
            exact h1b
        · exact Or.inr (Or.inl h2)
        · simp [curHabitIds] at h3
        · exact Or.inr (Or.inr (Or.inr h4))
      · exact Or.inl hi
    · split at hi
      · exact Or.inl hi
      · split at hi
        · split at hi
          · rw [mem_stIds] at hi
            rcases hi with h1 | h2 | h3 | h4
            · rw [List.map_append, List.mem_append] at h1
              rcases h1 with h1a | h1b
              · exact Or.inl (mem_stIds.mpr (Or.inl h1a))
              · left
                rw [mem_stIds]
                refine Or.inr (Or.inr (Or.inl ?_))
                rcases hcur : st.curHabit with - | h0
                · rw [hcur] at h1b
                  simp at h1b
                · rw [hcur] at h1b
                  simp only [List.map_cons, List.map_nil, List.mem_cons,
                    List.not_mem_nil, or_false] at h1b
                  simp only [curHabitIds, List.mem_cons, List.not_mem_nil, or_false]
                  exact h1b
            · exact Or.inl (mem_stIds.mpr (Or.inr (Or.inl h2)))
            · simp only [curHabitIds, freshHabit, List.mem_cons,
                List.not_mem_nil, or_false] at h3
              exact Or.inr ⟨st.nextId, h3⟩
            · exact Or.inl (mem_stIds.mpr (Or.inr (Or.inr (Or.inr h4))))
          · split at hi
            · rename_i h0 heq
              left
              rw [mem_stIds] at hi ⊢
              rcases hi with h1 | h2 | h3 | h4
              · exact Or.inl h1
              · exact Or.inr (Or.inl h2)
              · simp only [curHabitIds, habitLineStep_id, List.mem_cons,
                  List.not_mem_nil, or_false] at h3
                refine Or.inr (Or.inr (Or.inl ?_))
                rw [heq]
                simp only [curHabitIds, List.mem_cons, List.not_mem_nil, or_false]
                exact h3
              · exact Or.inr (Or.inr (Or.inr h4))
            · exact Or.inl hi
        · split at hi
          · split at hi
            · rw [mem_stIds] at hi
              rcases hi with h1 | h2 | h3 | h4
              · exact Or.inl (mem_stIds.mpr (Or.inl h1))
              · rw [taskIdsList_append] at h2
                rw [List.mem_append] at h2
                rcases h2 with h2a | h2b
                · exact Or.inl (mem_stIds.mpr (Or.inr (Or.inl h2a)))
                · left
                  rw [mem_stIds]
                  refine Or.inr (Or.inr (Or.inr ?_))
                  rcases hca : collapseAll st.stack with - | t0
                  · rw [hca] at h2b
                    simp [taskIdsList] at h2b
                  · rw [hca] at h2b
                    simp only [taskIdsList, List.append_nil] at h2b
                    exact mem_taskIds_collapseAll hca h2b
              · exact Or.inl (mem_stIds.mpr (Or.inr (Or.inr (Or.inl h3))))
              · simp only [stackIds, pIds, freshPTask, taskIdsList,
                  List.append_nil, List.mem_cons, List.not_mem_nil, or_false] at h4
                exact Or.inr ⟨st.nextId, h4⟩
            · split at hi
              · exact Or.inl hi
              · exact mem_stIds_taskLineStep gen st line hi
          · exact Or.inl hi

theorem mem_stIds_foldl (gen : Nat → Str) : ∀ (ls : List Str) (st : PSt) {i : Str},
    i ∈ stIds (ls.foldl (lineStep gen) st) → i ∈ stIds st ∨ ∃ m, i = gen m := by
  intro ls
  induction ls with
  | nil =>
    intro st i hi
    exact Or.inl hi
  | cons l ls ih =>
    intro st i hi
    rw [List.foldl_cons] at hi
    rcases ih (lineStep gen st l) hi with h1 | h2
    · exact mem_stIds_lineStep gen st l h1
    · exact Or.inr h2

theorem mem_stIds_finalize {st : PSt} {i : Str}
    (hi : i ∈ (finalizeState st).habits.map Habit.id ++
      taskIdsList (finalizeState st).tasks) :
    i ∈ stIds st := by
  unfold finalizeState at hi
  split at hi
  · rw [List.mem_append] at hi
    rw [mem_stIds]
    rcases hi with h1 | h2
    · rw [List.map_append, List.mem_append] at h1
      rcases h1 with h1a | h1b
      · exact Or.inl h1a
      · refine Or.inr (Or.inr (Or.inl ?_))
        rcases hcur : st.curHabit with - | h0
        · rw [hcur] at h1b
          simp at h1b
        · rw [hcur] at h1b
          simp only [List.map_cons, List.map_nil, List.mem_cons,
            List.not_mem_nil, or_false] at h1b
          simp only [curHabitIds, List.mem_cons, List.not_mem_nil, or_false]
          exact h1b
    · exact Or.inr (Or.inl h2)
  · rw [List.mem_append] at hi
    rw [mem_stIds]
    rcases hi with h1 | h2
    · exact Or.inl h1
    · rw [taskIdsList_append, List.mem_append] at h2
      rcases h2 with h2a | h2b
      · exact Or.inr (Or.inl h2a)
      · refine Or.inr (Or.inr (Or.inr ?_))
        rcases hca : collapseAll st.stack with - | t0
        · rw [hca] at h2b
          simp [taskIdsList] at h2b
        · rw [hca] at h2b
          simp only [taskIdsList, List.append_nil] at h2b
          exact mem_taskIds_collapseAll hca h2b
  · rw [List.mem_append] at hi
    rw [mem_stIds]
    tauto

/-- Every id anywhere in a parsed state — for any input text at all — is
freshly drawn from the id supply. -/
theorem parseMarkdown_ids (gen : Nat → Str) (md : Str) :
    ∀ i ∈ (parseMarkdown gen md).habits.map Habit.id ++
        taskIdsList (parseMarkdown gen md).tasks, ∃ m, i = gen m := by
  intro i hi
  unfold parseMarkdown at hi
  rcases mem_stIds_foldl gen (splitNl md) initPSt (mem_stIds_finalize hi) with h0 | h
  · simp [stIds, initPSt, stackIds, curHabitIds, taskIdsList] at h0
  · exact h

/-! ## Example states for the witnesses -/

def exNote : Note := ⟨"2026-02-13T10:00:00Z".data, "Felt great".data⟩

def exNote2 : Note := ⟨"2026-02-13T10:05:00Z".data, "Important note".data⟩

def exHabit : Habit :=
  ⟨"h1".data, "Drink water".data, 4, 3, some ("2026-02-12T09:00:00Z".data), [exNote]⟩

def exChild : Task := .mk "t2".data "Subtask".data true (some ("2026-02-13".data)) [] []

def exParent : Task := .mk "t1".data "Parent task".data false none [exNote2] [exChild]

def exState : AppState := ⟨[exHabit], [exParent]⟩

def exState2 : AppState :=
  ⟨[{ exHabit with id := "zz".data }],
   [Task.mk "q1".data "Parent task".data false none [exNote2]
     [Task.mk "q2".data "Subtask".data true (some ("2026-02-13".data)) [] []]]⟩

theorem exState_wf : wfState exState = true := by
  simp only [wfState, exState, exHabit, exParent, exChild, exNote, exNote2,
    List.all_cons, List.all_nil, wfTaskList, wfTask]
  decide

/-! ## The claims -/

/-- C1: for every well-formed state, parsing the serialized text yields a
state logically equivalent to the original: every habit and task field and
the children structure are preserved, with exactly the id fields excluded
(stripState erases exactly the ids). -/
theorem C1_parse_serialize_equiv (gen : Nat → Str) (s : AppState)
    (hw : wfState s = true) :
    stripState (parseMarkdown gen (serializeToMarkdown s.habits s.tasks)) = stripState s :=
  stripState_parse_serialize gen s hw

theorem C1_parse_serialize_equiv_witness :
    wfState exState = true ∧
    stripState (parseMarkdown genDefault
      (serializeToMarkdown exState.habits exState.tasks)) = stripState exState :=
  ⟨exState_wf, C1_parse_serialize_equiv genDefault exState exState_wf⟩

/-- C2: for every well-formed state, serializing the parse of the serialized
state is byte-identical to the first serialization. -/
theorem C2_reserialize_identical (gen : Nat → Str) (s : AppState)
    (hw : wfState s = true) :
    serializeToMarkdown (parseMarkdown gen (serializeToMarkdown s.habits s.tasks)).habits
        (parseMarkdown gen (serializeToMarkdown s.habits s.tasks)).tasks =
      serializeToMarkdown s.habits s.tasks :=
  serializeToMarkdown_congr (stripState_parse_serialize gen s hw)

theorem C2_reserialize_identical_witness :
    wfState exState = true ∧
    serializeToMarkdown (parseMarkdown genDefault
        (serializeToMarkdown exState.habits exState.tasks)).habits
      (parseMarkdown genDefault (serializeToMarkdown exState.habits exState.tasks)).tasks =
      serializeToMarkdown exState.habits exState.tasks :=
  ⟨exState_wf, C2_reserialize_identical genDefault exState exState_wf⟩

/-- C3: amended per-node law.  A node is removed from the live tree exactly
when it is itself completed with a completedAt month other than the current
month — but removal takes the whole subtree with it: a removed node's
children are dropped without being consulted, so a descendant completed in
the current month does not remain (the counterexample shows this), contrary
to the claim's per-node reading. -/
theorem C3_filter_per_node_amended (cm : Str) (i x : Str) (cp : Bool)
    (ca : Option Str) (n : List Note) (ch : List Task) :
    filterTask cm (.mk i x cp ca n ch) =
      (if cp && !(match ca with | some d => cm.isPrefixOf d | none => false) then none
       else some (.mk i x cp ca n (filterTaskList cm ch))) := by
  cases cp with
  | false => simp [filterTask]
  | true =>
    cases ca with
    | none => simp [filterTask]
    | some d =>
      by_cases hp : cm.isPrefixOf d = true
      · simp [filterTask, hp]
      · simp only [Bool.not_eq_true] at hp
        simp [filterTask, hp]

/-- C3: counterexample to the claim as stated: with current month 2026-10, a
parent completed 2026-09-01 is removed together with its child completed
2026-10-05 — a task completed in the current month that does not remain in
the returned state. -/
theorem C3_current_month_child_dropped :
    filterCurrentTasks ("2026-10".data)
      [.mk "p1".data "Old parent".data true (some ("2026-09-01".data)) []
        [.mk "c1".data "Fresh child".data true (some ("2026-10-05".data)) [] []]] = [] ∧
    ("2026-10".data).isPrefixOf ("2026-10-05".data) = true := by
  refine ⟨?_, by decide⟩
  unfold filterCurrentTasks
  rw [show filterTaskList ("2026-10".data)
      [.mk "p1".data "Old parent".data true (some ("2026-09-01".data)) []
        [.mk "c1".data "Fresh child".data true (some ("2026-10-05".data)) [] []]] =
      filterTaskList ("2026-10".data) [] from by
    simp only [filterTaskList, filterTask]
    rw [show ("2026-10".data).isPrefixOf ("2026-09-01".data) = false from by decide]
    simp]
  simp [filterTaskList]

/-- C4: an incomplete parent is never removed by the monthly filter: it
survives with its children filtered in place; concretely, an incomplete
parent with a current-month child and a prior-month child keeps the parent
and exactly the current-month child. -/
theorem C4_incomplete_parent_preserved (cm : Str) (i x : Str) (ca : Option Str)
    (n : List Note) (ch : List Task) :
    filterTask cm (.mk i x false ca n ch) =
      some (.mk i x false ca n (filterTaskList cm ch)) ∧
    filterCurrentTasks ("2026-10".data)
      [.mk "p2".data "Active parent".data false none []
        [.mk "c2".data "Current child".data true (some ("2026-10-03".data)) [] [],
         .mk "c3".data "Old child".data true (some ("2026-09-20".data)) [] []]] =
      [.mk "p2".data "Active parent".data false none []
        [.mk "c2".data "Current child".data true (some ("2026-10-03".data)) [] []]] := by
  constructor
  · simp [filterTask]
  · unfold filterCurrentTasks
    simp only [filterTaskList, filterTask]
    rw [show ("2026-10".data).isPrefixOf ("2026-10-03".data) = true from by decide,
      show ("2026-10".data).isPrefixOf ("2026-09-20".data) = false from by decide]
    simp

/-- C5: when the filesystem fails during the archival run, the whole
operation returns the original state unchanged and records no writes. -/
theorem C5_archive_error_returns_original (fs : Fs) (cm : Str) (s : AppState)
    (herr : archiveRun fs (archiveBlocksFor cm s) (archiveMonths cm s) = .err) :
    archiveOldCompletedTasks fs cm s = (s, []) := by
  unfold archiveOldCompletedTasks
  by_cases hemp : (collectOldList cm s.tasks).isEmpty = true
  · rw [if_pos hemp]
  · rw [if_neg hemp, herr]

def fsAllErr : Fs := ⟨fun _ => .err, fun _ => .err, fun _ _ => .err⟩

def exArchState : AppState :=
  ⟨[], [.mk "o1".data "Old task".data true (some ("2025-01-15".data)) [] []]⟩

theorem C5_archive_error_witness :
    archiveRun fsAllErr (archiveBlocksFor ("2026-10".data) exArchState)
      (archiveMonths ("2026-10".data) exArchState) = .err ∧
    archiveOldCompletedTasks fsAllErr ("2026-10".data) exArchState = (exArchState, []) := by
  have herr : archiveRun fsAllErr (archiveBlocksFor ("2026-10".data) exArchState)
      (archiveMonths ("2026-10".data) exArchState) = .err := by
    rw [show archiveMonths ("2026-10".data) exArchState = ["2025-01".data] from by
      simp only [archiveMonths, exArchState, collectOldList, collectOldTask]
      rw [show qualifiesArchive ("2026-10".data)
          (.mk "o1".data "Old task".data true (some ("2025-01-15".data)) [] []) = true from by
        simp only [qualifiesArchive]
        decide]
      simp [ymOf]]
    simp [archiveRun, fsAllErr]
  exact ⟨herr, C5_archive_error_returns_original fsAllErr ("2026-10".data) exArchState herr⟩

/-- C6: a watcher tick that reads back exactly the content save just wrote
reports nothing; a tick that reads different external content reports the
parsed new state exactly once and moves the marker, so the next tick on the
same content reports nothing again. -/
theorem C6_watcher_suppression (gen : Nat → Str) (s : AppState) (c : Str)
    (hne : c ≠ serializeToMarkdown s.habits s.tasks) :
    pollTick gen (saveCurrentState s).1 (serializeToMarkdown s.habits s.tasks) =
      ((saveCurrentState s).1, none) ∧
    pollTick gen (saveCurrentState s).1 c = (⟨c⟩, some (parseMarkdown gen c)) ∧
    pollTick gen (⟨c⟩ : WatcherSt) c = (⟨c⟩, none) := by
  refine ⟨?_, ?_, ?_⟩
  · unfold pollTick saveCurrentState
    rw [if_pos rfl]
  · unfold pollTick saveCurrentState
    rw [if_neg hne]
  · unfold pollTick
    rw [if_pos rfl]

theorem C6_watcher_suppression_witness :
    ("x".data ≠ serializeToMarkdown (AppState.mk [] []).habits (AppState.mk [] []).tasks) ∧
    pollTick genDefault (saveCurrentState ⟨[], []⟩).1
        (serializeToMarkdown (AppState.mk [] []).habits (AppState.mk [] []).tasks) =
      ((saveCurrentState ⟨[], []⟩).1, none) :=
  ⟨by decide, (C6_watcher_suppression genDefault ⟨[], []⟩ ("x".data) (by decide)).1⟩

/-- C7: the parser is total and crash-free on every input: the variant that
returns none exactly where the original code would access an element of the
empty ancestor stack always succeeds, and agrees with parseMarkdown. -/
theorem C7_parser_total (gen : Nat → Str) (md : Str) :
    parseMarkdownChecked gen md = some (parseMarkdown gen md) := by
  unfold parseMarkdownChecked parseMarkdown
  rw [foldlM_lineStepChecked gen (splitNl md) initPSt]
  rfl

/-- C8: a current-state file that exists and encodes zero habits and zero
tasks loads as the empty state, never as substituted defaults; only a failed
read produces the distinct no-state outcome. -/
theorem C8_empty_state_load (gen : Nat → Str) :
    parseMarkdown gen (serializeToMarkdown [] []) = ⟨[], []⟩ ∧
    loadCurrentState gen (.ok (serializeToMarkdown [] [])) =
      some (⟨[], []⟩, ⟨serializeToMarkdown [] []⟩) ∧
    loadCurrentState gen .err = none := by
  have h1 : parseMarkdown gen (serializeToMarkdown [] []) = ⟨[], []⟩ := by
    have h := parse_serialize gen [] [] rfl (by simp [wfTaskList])
    rw [h]
    simp [parsedHabits, reTasks]
  refine ⟨h1, ?_, rfl⟩
  rw [show loadCurrentState gen (.ok (serializeToMarkdown [] [])) =
      some (parseMarkdown gen (serializeToMarkdown [] []),
        ⟨serializeToMarkdown [] []⟩) from rfl, h1]

/-- C9: the serialized text carries no id information: two states equal up to
ids serialize byte-identically and parse identically, and — for any input
text whatsoever — every id anywhere in a parsed state is drawn fresh from
the supply, so no input id survives a serialize-then-parse round trip. -/
theorem C9_ids_not_persisted (gen : Nat → Str) (s1 s2 : AppState)
    (h : stripState s1 = stripState s2) :
    serializeToMarkdown s1.habits s1.tasks = serializeToMarkdown s2.habits s2.tasks ∧
    parseMarkdown gen (serializeToMarkdown s1.habits s1.tasks) =
      parseMarkdown gen (serializeToMarkdown s2.habits s2.tasks) ∧
    (∀ (md : Str), ∀ i ∈ (parseMarkdown gen md).habits.map Habit.id ++
        taskIdsList (parseMarkdown gen md).tasks, ∃ m, i = gen m) := by
  have hs := serializeToMarkdown_congr h
  exact ⟨hs, by rw [hs], fun md => parseMarkdown_ids gen md⟩

theorem C9_ids_not_persisted_witness :
    stripState exState = stripState exState2 ∧
    serializeToMarkdown exState.habits exState.tasks =
      serializeToMarkdown exState2.habits exState2.tasks := by
  have h : stripState exState = stripState exState2 := by
    simp [stripState, exState, exState2, exHabit, exParent, exChild, exNote, exNote2,
      stripTaskList, stripTask, stripHabit]
  exact ⟨h, (C9_ids_not_persisted genDefault exState exState2 h).1⟩

/-- C10: a habit freshly created at its heading parses with the defaults
interval 24, zero completions, no last-completed stamp and no notes; and a
metadata line whose value parses to 0 or NaN falls back to the default,
because a zero parse result is treated as missing. -/
theorem C10_habit_defaults (gen : Nat → Str) (H : List Habit) (T : List Task)
    (S : List PTask) (k : Nat) (x v : Str) (h : Habit)
    (hnan : jsParseInt v = none) :
    lineStep gen ⟨H, T, some .habits, none, S, k⟩ ("## ".data ++ x) =
      ⟨H, T, some .habits, some (freshHabit (gen k) x), S, k + 1⟩ ∧
    freshHabit (gen k) x = ⟨gen k, x, 24, 0, none, []⟩ ∧
    habitLineStep h ("- Interval: ".data ++ "0h".data) =
      { h with repeatIntervalHours := 24 } ∧
    habitLineStep h ("- Interval: ".data ++ v) = { h with repeatIntervalHours := 24 } ∧
    habitLineStep h ("- Total Completions: ".data ++ v) = { h with totalCompletions := 0 } := by
  refine ⟨?_, rfl, ?_, ?_, ?_⟩
  · rw [lineStep_habitHeading gen x rfl]
    simp
  · rw [habitLineStep_interval]
    rw [show jsParseIntOr ("0h".data) 24 = 24 from by decide]
  · rw [habitLineStep_interval]
    rw [show jsParseIntOr v 24 = 24 from by
      unfold jsParseIntOr
      rw [hnan]]
  · rw [habitLineStep_total]
    rw [show jsParseIntOr v 0 = 0 from by
      unfold jsParseIntOr
      rw [hnan]]

theorem C10_habit_defaults_witness :
    jsParseInt ("Nh".data) = none ∧
    habitLineStep exHabit ("- Interval: ".data ++ "Nh".data) =
      { exHabit with repeatIntervalHours := 24 } :=
  ⟨by decide, (C10_habit_defaults genDefault [] [] [] 0 [] ("Nh".data) exHabit
    (by decide)).2.2.2.1⟩

end Clawkeeper
